import Mathlib

/- Formal model of the nav-cu campus routing engine: the Dijkstra-based
solver in src/utils/routing.ts and the two-phase route selection in
src/app/(tabs)/navigation.tsx, together with proofs of its specification
properties.  JavaScript numbers are modelled as rationals, JS plain objects
used as string-keyed maps as association lists, and the unbounded
path-reconstruction while loop through an explicit fuel parameter. -/

namespace NavCu

/-- JavaScript runtime values that can appear in the path-reconstruction walk
of `findShortestPath`: `undefined`, `null`, or a string. -/
inductive JSVal where
  | undef : JSVal
  | null : JSVal
  | str : String → JSVal
deriving DecidableEq, Repr

/-- First-match lookup in an association list modelling a JS plain object; a
missing key yields `none` (JS `undefined`). -/
def lookupA {α : Type} : List (String × α) → String → Option α
  | [], _ => none
  | (k, v) :: rest, key => if k = key then some v else lookupA rest key

/-- Setting a key in a JS object: cons the binding to the front, so that later
writes shadow earlier ones under `lookupA`. -/
def insertA {α : Type} (m : List (String × α)) (k : String) (v : α) :
    List (String × α) :=
  (k, v) :: m

/-- A graph node (src/types/graph.ts).  The planar coordinates and the display
name are omitted: the routing code under verification never reads them. -/
structure Node where
  id : String
  no_stairs : Bool
  outside_campus : Option Bool := none
  indoor : Option Bool := none
  elevator : Option Bool := none
  different_floor : Option Bool := none
deriving DecidableEq, Repr

/-- A graph edge (src/types/graph.ts). -/
structure Edge where
  id : String
  sourceId : String
  targetId : String
  distance : ℚ
  no_stairs : Bool
deriving DecidableEq, Repr

/-- The full graph handed to the solver (src/types/graph.ts). -/
structure GraphData where
  nodes : List Node
  edges : List Edge
deriving DecidableEq, Repr

/-- Routing preferences (src/utils/routing.ts lines 3-19); all three fields
are optional in the TypeScript type. -/
structure RoutePreferences where
  disallowStairs : Option Bool := none
  outdoorPenalty : Option ℚ := none
  campusBoundaryPenalty : Option ℚ := none
deriving DecidableEq, Repr

/-- An adjacency entry (src/utils/routing.ts lines 21-25). -/
structure Neighbor where
  id : String
  distance : ℚ
  no_stairs : Bool
deriving DecidableEq, Repr

/-- `node?.indoor === false || node?.outside_campus === true`
(routing.ts lines 49-50); an absent node gives `undefined === ...`, false. -/
def isOutdoorNode : Option Node → Bool
  | some n => n.indoor == some false || n.outside_campus == some true
  | none => false

/-- `node?.indoor === true` for a possibly-missing node. -/
def nodeIndoorTrue : Option Node → Bool
  | some n => n.indoor == some true
  | none => false

/-- `!!node?.outside_campus` for a possibly-missing node. -/
def nodeOutsideCampus : Option Node → Bool
  | some n => n.outside_campus == some true
  | none => false

/-- The `edgeCost` closure of `findShortestPath` (routing.ts lines 52-79),
with the node map and the already-clamped penalties as explicit parameters.
`stairsPenalty` is the constant 0 of line 45. -/
def edgeCost (nodeMap : List (String × Node)) (op cp : ℚ)
    (fromId toId : String) (neighbor : Neighbor) : ℚ :=
  let stairsPenalty : ℚ := 0
  let cost0 := neighbor.distance
  let cost1 := if neighbor.no_stairs = false then cost0 + stairsPenalty else cost0
  let fromNode := lookupA nodeMap fromId
  let toNode := lookupA nodeMap toId
  let crossesIndoorOutdoor :=
    (nodeIndoorTrue fromNode && isOutdoorNode toNode) ||
    (nodeIndoorTrue toNode && isOutdoorNode fromNode)
  let cost2 := if 0 < op ∧ crossesIndoorOutdoor = true then cost1 + op else cost1
  let cost3 :=
    if 0 < cp ∧ nodeOutsideCampus fromNode ≠ nodeOutsideCampus toNode then
      cost2 + cp
    else cost2
  if 0 < cost3 then cost3 else neighbor.distance

/-- `graph[k].push(n)` guarded by `if (graph[k])` (routing.ts lines 85-99):
append a neighbor to an existing adjacency entry; a missing key (dangling
edge endpoint) is a no-op. -/
def adjInsert (g : List (String × List Neighbor)) (k : String) (n : Neighbor) :
    List (String × List Neighbor) :=
  match lookupA g k with
  | none => g
  | some ns => insertA g k (ns ++ [n])

/-- Processing one edge of the adjacency-construction loop (routing.ts lines
81-100): skip it entirely when stairs are disallowed and the edge needs
stairs, otherwise register it in both directions. -/
def addEdge (disallow : Bool) (g : List (String × List Neighbor)) (e : Edge) :
    List (String × List Neighbor) :=
  if disallow && (e.no_stairs == false) then g
  else
    adjInsert (adjInsert g e.sourceId ⟨e.targetId, e.distance, e.no_stairs⟩)
      e.targetId ⟨e.sourceId, e.distance, e.no_stairs⟩

/-- The `nodeMap` of routing.ts lines 35-36. -/
def nodeMapOf (data : GraphData) : List (String × Node) :=
  data.nodes.foldl (fun m n => insertA m n.id n) []

/-- The adjacency map of routing.ts lines 38-41 and 81-100. -/
def adjOf (data : GraphData) (disallow : Bool) : List (String × List Neighbor) :=
  data.edges.foldl (addEdge disallow)
    (data.nodes.foldl (fun g n => insertA g n.id []) [])

/-- The cost function compiled from a graph and clamped penalties. -/
def cfOf (data : GraphData) (op cp : ℚ) : String → String → Neighbor → ℚ :=
  edgeCost (nodeMapOf data) op cp

/-- The mutable state of the Dijkstra loop: the `distances` and `previous`
objects of routing.ts lines 103-104. -/
structure DijkState where
  dist : List (String × WithTop ℚ)
  prev : List (String × Option String)
deriving DecidableEq

/-- Distance lookup where a missing key defaults to `⊤`; inside the loop it
is only applied to keys of the map. -/
def dGet (dist : List (String × WithTop ℚ)) (x : String) : WithTop ℚ :=
  (lookupA dist x).getD ⊤

/-- The sort comparator `(a, b) => distances[a] - distances[b]` of routing.ts
line 117, as the total preorder it induces: `Infinity` compares equal to
`Infinity` because their difference is `NaN`, which the JS sort maps to 0.
The JS sort is stable, so sorting by any stable algorithm with this total
preorder yields the same list; the model sorts by stable insertion. -/
def distRel (dist : List (String × WithTop ℚ)) (a b : String) : Prop :=
  dGet dist a ≤ dGet dist b

instance distRelDecidable (dist : List (String × WithTop ℚ)) :
    DecidableRel (distRel dist) :=
  fun a b => inferInstanceAs (Decidable (dGet dist a ≤ dGet dist b))

instance distRelTotal (dist : List (String × WithTop ℚ)) :
    IsTotal String (distRel dist) :=
  ⟨fun a b => le_total (dGet dist a) (dGet dist b)⟩

instance distRelTrans (dist : List (String × WithTop ℚ)) :
    IsTrans String (distRel dist) :=
  ⟨fun _ _ _ hab hbc => le_trans hab hbc⟩

/-- One relaxation step of the neighbor loop (routing.ts lines 127-137):
skip neighbors whose distance entry is `undefined`, otherwise compare
`distances[u] + edgeCost(u, neighbor.id, neighbor)` against the recorded
distance and update `distances` and `previous` on strict improvement. -/
def relaxOne (nodeMap : List (String × Node)) (op cp : ℚ) (u : String)
    (st : DijkState) (n : Neighbor) : DijkState :=
  match lookupA st.dist n.id with
  | none => st
  | some dn =>
    let alt := dGet st.dist u + (edgeCost nodeMap op cp u n.id n : WithTop ℚ)
    if alt < dn then
      ⟨insertA st.dist n.id alt, insertA st.prev n.id (some u)⟩
    else st

/-- The body of the main Dijkstra loop of routing.ts lines 115-138, recursing
on a fuel that the top-level call sets to the queue length: every iteration
removes exactly one queue entry, so the fuel never runs out before the queue
does and fuel 0 coincides with the `while (pq.length > 0)` exit.  Each
iteration sorts the queue by tentative distance, shifts the front element,
and exits on an empty string (the `!shortestNodeId` falsiness check), on
reaching `endId`, or on an infinite minimum distance; otherwise it relaxes
the adjacency entries of the shifted node. -/
def dijkLoopF (nodeMap : List (String × Node)) (adj : List (String × List Neighbor))
    (op cp : ℚ) (endId : String) : Nat → List String → DijkState → DijkState
  | 0, _, st => st
  | fuel + 1, pq, st =>
    match List.insertionSort (distRel st.dist) pq with
    | [] => st
    | u :: rest =>
      if u = "" then st
      else if u = endId then st
      else if lookupA st.dist u = some ⊤ then st
      else
        match lookupA adj u with
        | none => dijkLoopF nodeMap adj op cp endId fuel rest st
        | some ns =>
          dijkLoopF nodeMap adj op cp endId fuel rest
            (ns.foldl (relaxOne nodeMap op cp u) st)

/-- The main Dijkstra loop of routing.ts lines 115-138. -/
def dijkLoop (nodeMap : List (String × Node)) (adj : List (String × List Neighbor))
    (op cp : ℚ) (endId : String) (pq : List String) (st : DijkState) : DijkState :=
  dijkLoopF nodeMap adj op cp endId pq.length pq st

/-- The string a JS value is coerced to when used as a property key. -/
def keyOfJS : JSVal → String
  | JSVal.undef => "undefined"
  | JSVal.null => "null"
  | JSVal.str s => s

/-- One step `u = previous[u]` of the reconstruction walk (routing.ts line
147), with the JS coercion of the key and `undefined` for a missing key. -/
def walkStep (prev : List (String × Option String)) (u : JSVal) : JSVal :=
  match lookupA prev (keyOfJS u) with
  | none => JSVal.undef
  | some none => JSVal.null
  | some (some s) => JSVal.str s

/-- The reconstruction `while (u !== null)` loop (routing.ts lines 145-148),
bounded by fuel: `none` means the walk did not reach `null` within `fuel`
iterations.  Each iteration unshifts the current value and steps through
`previous`. -/
def reconstructFuel (prev : List (String × Option String)) :
    Nat → JSVal → List JSVal → Option (List JSVal)
  | 0, u, acc => if u = JSVal.null then some acc else none
  | fuel + 1, u, acc =>
    if u = JSVal.null then some acc
    else reconstructFuel prev fuel (walkStep prev u) (u :: acc)

/-- The `distances` object right after initialization (routing.ts lines
103-111): every node id mapped to `Infinity`. -/
def dist0Of (data : GraphData) : List (String × WithTop ℚ) :=
  data.nodes.foldl (fun m n => insertA m n.id (⊤ : WithTop ℚ)) []

/-- The `previous` object right after initialization (routing.ts lines
103-111): every node id mapped to `null`. -/
def prev0Of (data : GraphData) : List (String × Option String) :=
  data.nodes.foldl (fun m n => insertA m n.id (none : Option String)) []

/-- The Dijkstra state when the main loop exits: the loop run on the full
queue from the initial state with `distances[startId] = 0` (routing.ts lines
103-138). -/
def dijkFinal (data : GraphData) (startId endId : String) (disallow : Bool)
    (op cp : ℚ) : DijkState :=
  dijkLoop (nodeMapOf data) (adjOf data disallow) op cp endId
    (data.nodes.map Node.id) ⟨insertA (dist0Of data) startId 0, prev0Of data⟩

/-- `findShortestPath` after preference normalization (routing.ts lines
29-152): `disallow` is `!!preferences.disallowStairs` and `op`, `cp` are the
penalties clamped to be non-negative.  In the result, the outer `none` means
the reconstruction loop did not finish within `fuel` steps (the original
JavaScript loops forever in exactly those runs), `some none` models a
returned `null`, and `some (some p)` a returned path `p`. -/
def findShortestPathCore (fuel : Nat) (data : GraphData) (startId endId : String)
    (disallow : Bool) (op cp : ℚ) : Option (Option (List JSVal)) :=
  if lookupA (dijkFinal data startId endId disallow op cp).prev endId ≠ some none ∨
      endId = startId then
    match reconstructFuel (dijkFinal data startId endId disallow op cp).prev fuel
      (JSVal.str endId) [] with
    | none => none
    | some path => some (if 0 < path.length then some path else none)
  else
    some none

/-- `findShortestPath` with explicit reconstruction fuel, normalizing the
preferences exactly as routing.ts lines 43-47 do. -/
def findShortestPathFuel (fuel : Nat) (data : GraphData) (startId endId : String)
    (preferences : RoutePreferences) : Option (Option (List JSVal)) :=
  findShortestPathCore fuel data startId endId
    (preferences.disallowStairs.getD false)
    (max 0 (preferences.outdoorPenalty.getD 0))
    (max 0 (preferences.campusBoundaryPenalty.getD 0))

/-- Top-level model of `findShortestPath` (routing.ts lines 29-152).  The
default fuel `data.nodes.length + 5` is enough for every terminating run of
the reconstruction loop, so `none` means the original does not terminate. -/
def findShortestPath (data : GraphData) (startId endId : String)
    (preferences : RoutePreferences) : Option (Option (List JSVal)) :=
  findShortestPathFuel (data.nodes.length + 5) data startId endId preferences

/-- `node.indoor === true && node.outside_campus !== true`
(navigation.tsx lines 165-166). -/
def isIndoorSafe (n : Node) : Bool :=
  (n.indoor == some true) && !(n.outside_campus == some true)

/-- The indoor-only subgraph of phase 1 (navigation.tsx lines 171-178):
indoor-safe nodes and the edges with both endpoints among their ids. -/
def indoorGraphOf (g : GraphData) : GraphData :=
  ⟨g.nodes.filter isIndoorSafe,
   g.edges.filter (fun e =>
     decide (e.sourceId ∈ (g.nodes.filter isIndoorSafe).map Node.id) &&
     decide (e.targetId ∈ (g.nodes.filter isIndoorSafe).map Node.id))⟩

/-- The route-calculation effect of NavigationScreen (navigation.tsx lines
158-197): when outdoor minimization is on and both endpoints are indoor-safe
and present in the indoor subgraph, try the indoor-only graph with
`outdoorPenalty` forced to 0; keep that path if non-empty, otherwise fall
back to the full graph with the complete preferences.  The outer `none`
propagates non-termination of a solver call. -/
def chooseRoute (g : GraphData) (startNode endNode : Node)
    (minimizeOutdoorPaths : Bool) (prefs : RoutePreferences) :
    Option (Option (List JSVal)) :=
  match (if minimizeOutdoorPaths && isIndoorSafe startNode && isIndoorSafe endNode then
      (if startNode.id ∈ (g.nodes.filter isIndoorSafe).map Node.id ∧
          endNode.id ∈ (g.nodes.filter isIndoorSafe).map Node.id then
        findShortestPath (indoorGraphOf g) startNode.id endNode.id
          { prefs with outdoorPenalty := some 0 }
      else some none)
    else some none : Option (Option (List JSVal))) with
  | none => none
  | some (some p) =>
    if 0 < p.length then some (some p)
    else findShortestPath g startNode.id endNode.id prefs
  | some none => findShortestPath g startNode.id endNode.id prefs

/-- A walk through an adjacency structure from `u` to `w` visiting the listed
nodes in order, with `c` the sum of the traversed edge costs; each step
chooses one adjacency entry, so parallel edges give distinct costs for the
same node sequence. -/
inductive WalkCost (adj : List (String × List Neighbor))
    (cf : String → String → Neighbor → ℚ) :
    String → String → List String → ℚ → Prop where
  | single (u : String) : WalkCost adj cf u u [u] 0
  | cons {u v w : String} {p : List String} {c : ℚ} (n : Neighbor)
      (ns : List Neighbor) (hadj : lookupA adj u = some ns) (hmem : n ∈ ns)
      (hid : n.id = v) (tail : WalkCost adj cf v w (v :: p) c) :
      WalkCost adj cf u w (u :: v :: p) (cf u v n + c)

/-- The condition under which claim C5 says the outdoor penalty applies,
worded exactly as the claim does: exactly one of the two nodes is indoor
(`indoor === true`) while the other is outdoor (`indoor === false` or
`outside_campus === true`); "exactly one is indoor" excludes the case where
both carry `indoor === true`. -/
def exactlyOneIndoorOtherOutdoor (fromNode toNode : Option Node) : Bool :=
  (nodeIndoorTrue fromNode && !nodeIndoorTrue toNode && isOutdoorNode toNode) ||
  (nodeIndoorTrue toNode && !nodeIndoorTrue fromNode && isOutdoorNode fromNode)

/-- The edge-cost formula as claim C5 (spec 4.2) words it, for comparison
against the implemented `edgeCost`. -/
def edgeCostClaimC5 (nodeMap : List (String × Node)) (op cp : ℚ)
    (fromId toId : String) (neighbor : Neighbor) : ℚ :=
  let fromNode := lookupA nodeMap fromId
  let toNode := lookupA nodeMap toId
  let total := neighbor.distance
    + (if 0 < op ∧ exactlyOneIndoorOtherOutdoor fromNode toNode = true then op else 0)
    + (if 0 < cp ∧ nodeOutsideCampus fromNode ≠ nodeOutsideCampus toNode then cp else 0)
  if total ≤ 0 then neighbor.distance else total

/-- The crossing condition the code actually implements (routing.ts lines
63-65), as a standalone predicate on the two endpoint lookups. -/
def crossesIndoorOutdoorB (fromNode toNode : Option Node) : Bool :=
  (nodeIndoorTrue fromNode && isOutdoorNode toNode) ||
  (nodeIndoorTrue toNode && isOutdoorNode fromNode)

/-- Fixture for the C5 counterexample: node a carries `indoor: true` only,
node b carries both `indoor: true` and `outside_campus: true`, so b
satisfies the indoor predicate and the outdoor predicate at once. -/
def cmC5 : List (String × Node) :=
  [("a", { id := "a", no_stairs := true, indoor := some true }),
   ("b", { id := "b", no_stairs := true, indoor := some true,
           outside_campus := some true })]

/-- Fixture for C4: a one-node graph; the id "b" is not in the node list. -/
def gMissingEnd : GraphData := ⟨[{ id := "a", no_stairs := true }], []⟩

/-- Fixture for the C8 counterexample: a single node whose id is the string
"undefined", which the reconstruction walk's JS key coercion collides with. -/
def gUndefinedNode : GraphData :=
  ⟨[{ id := "undefined", no_stairs := true }], []⟩

/-- Fixture for the C1 counterexample: a node whose id is the empty string is
falsy in JS, so shifting it aborts the Dijkstra loop early.  The cheap route
x → "" → e costs 2, the direct edge costs 10. -/
def gEmptyId : GraphData :=
  ⟨[{ id := "x", no_stairs := true }, { id := "", no_stairs := true },
    { id := "e", no_stairs := true }],
   [{ id := "1", sourceId := "x", targetId := "", distance := 1, no_stairs := true },
    { id := "2", sourceId := "", targetId := "e", distance := 1, no_stairs := true },
    { id := "3", sourceId := "x", targetId := "e", distance := 10, no_stairs := true }]⟩

/-- The concrete scenario of spec section 8: indoor A, outdoor B, indoor C,
edges A-B and B-C walkable without stairs, and a direct A-C edge that
requires stairs. -/
def gABC : GraphData :=
  ⟨[{ id := "A", no_stairs := true, indoor := some true },
    { id := "B", no_stairs := true, indoor := some false },
    { id := "C", no_stairs := true, indoor := some true }],
   [{ id := "e1", sourceId := "A", targetId := "B", distance := 10, no_stairs := true },
    { id := "e2", sourceId := "B", targetId := "C", distance := 10, no_stairs := true },
    { id := "e3", sourceId := "A", targetId := "C", distance := 30, no_stairs := false }]⟩

/-- Small two-node fixture used by several witnesses. -/
def gTwo : GraphData :=
  ⟨[{ id := "a", no_stairs := true, indoor := some true },
    { id := "b", no_stairs := true, indoor := some true }],
   [{ id := "e1", sourceId := "a", targetId := "b", distance := 3, no_stairs := true }]⟩

section BasicLemmas

theorem lookupA_insertA {α : Type} (m : List (String × α)) (k : String) (v : α)
    (x : String) :
    lookupA (insertA m k v) x = if k = x then some v else lookupA m x := rfl

theorem lookupA_foldl_insert_const {α : Type} (c : α) (nodes : List Node)
    (g0 : List (String × α)) (x : String) :
    lookupA (nodes.foldl (fun g n => insertA g n.id c) g0) x =
      if x ∈ nodes.map Node.id then some c else lookupA g0 x := by
  induction nodes generalizing g0 with
  | nil => simp
  | cons n rest ih =>
    simp only [List.foldl_cons, ih, List.map_cons, List.mem_cons]
    by_cases hx : x ∈ rest.map Node.id
    · simp [hx]
    · by_cases h : n.id = x
      · simp [hx, h, lookupA_insertA]
      · have h2 : ¬ x = n.id := fun hh => h hh.symm
        simp [hx, h, h2, lookupA_insertA]

theorem lookupA_adjInsert_isSome (g : List (String × List Neighbor)) (k : String)
    (n : Neighbor) (x : String) :
    (lookupA (adjInsert g k n) x).isSome = (lookupA g x).isSome := by
  unfold adjInsert
  match h : lookupA g k with
  | none => rfl
  | some ns =>
    rw [lookupA_insertA]
    by_cases hk : k = x
    · subst hk
      rw [h]
      simp
    · simp [hk]

theorem adjInsert_mem_preserved {g : List (String × List Neighbor)} {x : String}
    {ns : List Neighbor} {nb : Neighbor} (k : String) (n : Neighbor)
    (hx : lookupA g x = some ns) (hmem : nb ∈ ns) :
    ∃ ns2, lookupA (adjInsert g k n) x = some ns2 ∧ nb ∈ ns2 := by
  unfold adjInsert
  cases h : lookupA g k with
  | none => exact ⟨ns, hx, hmem⟩
  | some ks =>
    rw [lookupA_insertA]
    by_cases hk : k = x
    · subst hk
      rw [hx] at h
      injection h with h2
      subst h2
      exact ⟨ns ++ [n], by simp, List.mem_append_left _ hmem⟩
    · exact ⟨ns, by simp [hk, hx], hmem⟩

theorem adjInsert_mem_self {g : List (String × List Neighbor)} {k : String}
    {ks : List Neighbor} (n : Neighbor) (hk : lookupA g k = some ks) :
    ∃ ns2, lookupA (adjInsert g k n) k = some ns2 ∧ n ∈ ns2 := by
  unfold adjInsert
  rw [hk, lookupA_insertA]
  exact ⟨ks ++ [n], by simp, List.mem_append_right _ (List.mem_singleton_self n)⟩

theorem addEdge_mem_preserved {g : List (String × List Neighbor)} {x : String}
    {ns : List Neighbor} {nb : Neighbor} (disallow : Bool) (e : Edge)
    (hx : lookupA g x = some ns) (hmem : nb ∈ ns) :
    ∃ ns2, lookupA (addEdge disallow g e) x = some ns2 ∧ nb ∈ ns2 := by
  unfold addEdge
  split
  · exact ⟨ns, hx, hmem⟩
  · obtain ⟨ns1, h1, hm1⟩ := adjInsert_mem_preserved e.sourceId
      ⟨e.targetId, e.distance, e.no_stairs⟩ hx hmem
    exact adjInsert_mem_preserved e.targetId ⟨e.sourceId, e.distance, e.no_stairs⟩ h1 hm1

theorem foldl_addEdge_mem_preserved {x : String} {ns : List Neighbor}
    {nb : Neighbor} (disallow : Bool) (es : List Edge)
    (g : List (String × List Neighbor))
    (hx : lookupA g x = some ns) (hmem : nb ∈ ns) :
    ∃ ns2, lookupA (es.foldl (addEdge disallow) g) x = some ns2 ∧ nb ∈ ns2 := by
  induction es generalizing g ns with
  | nil => exact ⟨ns, hx, hmem⟩
  | cons e rest ih =>
    obtain ⟨ns1, h1, hm1⟩ := addEdge_mem_preserved disallow e hx hmem
    exact ih _ h1 hm1

theorem lookupA_addEdge_isSome (disallow : Bool) (g : List (String × List Neighbor))
    (e : Edge) (x : String) :
    (lookupA (addEdge disallow g e) x).isSome = (lookupA g x).isSome := by
  unfold addEdge
  split
  · rfl
  · rw [lookupA_adjInsert_isSome, lookupA_adjInsert_isSome]

theorem lookupA_foldl_addEdge_isSome (disallow : Bool) (es : List Edge)
    (g : List (String × List Neighbor)) (x : String) :
    (lookupA (es.foldl (addEdge disallow) g) x).isSome = (lookupA g x).isSome := by
  induction es generalizing g with
  | nil => rfl
  | cons e rest ih => rw [List.foldl_cons, ih, lookupA_addEdge_isSome]

theorem adjOf_isSome (data : GraphData) (disallow : Bool) (x : String) :
    (lookupA (adjOf data disallow) x).isSome = true ↔ x ∈ data.nodes.map Node.id := by
  unfold adjOf
  rw [lookupA_foldl_addEdge_isSome, lookupA_foldl_insert_const]
  by_cases hx : x ∈ data.nodes.map Node.id <;> simp [hx, lookupA]

theorem dijkLoop_nil {nm : List (String × Node)} {adj : List (String × List Neighbor)}
    {op cp : ℚ} {endId : String} {pq : List String} {st : DijkState}
    (hm : List.insertionSort (distRel st.dist) pq = []) :
    dijkLoop nm adj op cp endId pq st = st := by
  have hp : pq = [] := by
    have h2 := List.perm_insertionSort (distRel st.dist) pq
    rw [hm] at h2
    exact (List.Perm.symm h2).eq_nil
  subst hp
  rfl

theorem dijkLoop_cons {nm : List (String × Node)} {adj : List (String × List Neighbor)}
    {op cp : ℚ} {endId : String} {pq : List String} {st : DijkState}
    {u : String} {rest : List String}
    (hm : List.insertionSort (distRel st.dist) pq = u :: rest) :
    dijkLoop nm adj op cp endId pq st =
      (if u = "" then st
       else if u = endId then st
       else if lookupA st.dist u = some ⊤ then st
       else
         match lookupA adj u with
         | none => dijkLoop nm adj op cp endId rest st
         | some ns =>
           dijkLoop nm adj op cp endId rest (ns.foldl (relaxOne nm op cp u) st)) := by
  have hlen : pq.length = rest.length + 1 := by
    have h2 := List.length_insertionSort (distRel st.dist) pq
    rw [hm] at h2
    simpa using h2.symm
  show dijkLoopF nm adj op cp endId pq.length pq st = _
  rw [hlen]
  simp only [dijkLoopF]
  rw [hm]
  rfl

theorem ite_add_shape (d x y : ℚ) (B C : Prop) [Decidable B] [Decidable C] :
    (if C then (if B then d + x else d) + y else (if B then d + x else d)) =
      d + (if B then x else 0) + (if C then y else 0) := by
  split_ifs <;> ring

theorem ite_pos_shape (t d : ℚ) :
    (if 0 < t then t else d) = (if t ≤ 0 then d else t) := by
  rcases le_or_lt t 0 with h | h
  · rw [if_neg (not_lt.mpr h), if_pos h]
  · rw [if_pos h, if_neg (not_le.mpr h)]

end BasicLemmas

section ClaimC5

set_option allowUnsafeReducibility true in
attribute [local semireducible] Rat.add in
/-- C5: counterexample.  With fromNode a carrying `indoor: true` and toNode b
carrying both `indoor: true` and `outside_campus: true`, both nodes are
indoor, so the claim's "exactly one of the two nodes is indoor" condition
fails and its formula yields the bare distance 1; the implemented `edgeCost`
nevertheless adds the outdoor penalty and yields 6. -/
theorem C5_edgeCost_counterexample :
    edgeCost cmC5 5 0 "a" "b" ⟨"b", 1, true⟩ = 6 ∧
    edgeCostClaimC5 cmC5 5 0 "a" "b" ⟨"b", 1, true⟩ = 1 ∧
    edgeCost cmC5 5 0 "a" "b" ⟨"b", 1, true⟩ ≠
      edgeCostClaimC5 cmC5 5 0 "a" "b" ⟨"b", 1, true⟩ := by
  refine ⟨?_, ?_, ?_⟩ <;> decide

/-- C5 (amended): for every pair of node ids and every adjacency entry, the
edge cost equals edge.distance, plus outdoorPenalty exactly when
outdoorPenalty > 0 and one of the two nodes is indoor (`indoor === true`)
while the other is outdoor (`indoor === false` or `outside_campus === true`)
— the indoor node may itself also satisfy the outdoor predicate, no
exclusivity is required — plus campusBoundaryPenalty exactly when
campusBoundaryPenalty > 0 and the two nodes' outside_campus flags (undefined
taken as false) differ; and if this total is ≤ 0 the cost falls back to the
raw edge.distance. -/
theorem C5_edgeCost_formula_amended (nodeMap : List (String × Node)) (op cp : ℚ)
    (fromId toId : String) (n : Neighbor) :
    edgeCost nodeMap op cp fromId toId n =
      (let fromNode := lookupA nodeMap fromId
       let toNode := lookupA nodeMap toId
       let total := n.distance
         + (if 0 < op ∧ crossesIndoorOutdoorB fromNode toNode = true then op else 0)
         + (if 0 < cp ∧ nodeOutsideCampus fromNode ≠ nodeOutsideCampus toNode
            then cp else 0)
       if total ≤ 0 then n.distance else total) := by
  simp only [edgeCost, crossesIndoorOutdoorB, add_zero, ite_self]
  split_ifs <;> linarith

end ClaimC5

section ClaimC6

theorem edgeCost_symm (nodeMap : List (String × Node)) (op cp : ℚ) (a b : String)
    (n : Neighbor) :
    edgeCost nodeMap op cp a b n = edgeCost nodeMap op cp b a n := by
  simp only [edgeCost, Bool.or_comm, ne_comm]

theorem edgeCost_neighbor_id (nodeMap : List (String × Node)) (op cp : ℚ)
    (a b : String) (i j : String) (d : ℚ) (s : Bool) :
    edgeCost nodeMap op cp a b ⟨i, d, s⟩ = edgeCost nodeMap op cp a b ⟨j, d, s⟩ := rfl

theorem addEdge_mem_new (disallow : Bool) {g : List (String × List Neighbor)}
    (e : Edge) (hadm : ¬(disallow = true ∧ e.no_stairs = false))
    (hs : (lookupA g e.sourceId).isSome = true)
    (ht : (lookupA g e.targetId).isSome = true) :
    (∃ ns, lookupA (addEdge disallow g e) e.sourceId = some ns ∧
      (⟨e.targetId, e.distance, e.no_stairs⟩ : Neighbor) ∈ ns) ∧
    (∃ ns, lookupA (addEdge disallow g e) e.targetId = some ns ∧
      (⟨e.sourceId, e.distance, e.no_stairs⟩ : Neighbor) ∈ ns) := by
  have hcond : (disallow && (e.no_stairs == false)) = false := by
    cases hd : disallow <;> cases hn : e.no_stairs <;> simp_all
  unfold addEdge
  rw [hcond]
  simp only [Bool.false_eq_true, if_false]
  obtain ⟨ns, hns⟩ := Option.isSome_iff_exists.mp hs
  constructor
  · obtain ⟨ns2, h2, hm2⟩ :=
      adjInsert_mem_self (⟨e.targetId, e.distance, e.no_stairs⟩ : Neighbor) hns
    exact adjInsert_mem_preserved _ _ h2 hm2
  · have ht2 : (lookupA (adjInsert g e.sourceId
        ⟨e.targetId, e.distance, e.no_stairs⟩) e.targetId).isSome = true := by
      rw [lookupA_adjInsert_isSome]
      exact ht
    obtain ⟨ns3, hns3⟩ := Option.isSome_iff_exists.mp ht2
    exact adjInsert_mem_self _ hns3

/-- C6: the compiled cost function is symmetric — `cost(a, b, edge)` equals
`cost(b, a, edge)` for the same edge payload — and, combined with the
bidirectional adjacency registration, every admissible edge whose two
endpoints are present in the node list is registered as a neighbor of both
endpoints with the same distance and stairs flag, so traversal is permitted
in both directions at identical cost. -/
theorem C6_cost_symmetric_bidirectional :
    (∀ (nodeMap : List (String × Node)) (op cp : ℚ) (a b : String) (n : Neighbor),
      edgeCost nodeMap op cp a b n = edgeCost nodeMap op cp b a n) ∧
    (∀ (data : GraphData) (disallow : Bool) (e : Edge), e ∈ data.edges →
      ¬(disallow = true ∧ e.no_stairs = false) →
      e.sourceId ∈ data.nodes.map Node.id →
      e.targetId ∈ data.nodes.map Node.id →
      (∃ ns, lookupA (adjOf data disallow) e.sourceId = some ns ∧
        (⟨e.targetId, e.distance, e.no_stairs⟩ : Neighbor) ∈ ns) ∧
      (∃ ns, lookupA (adjOf data disallow) e.targetId = some ns ∧
        (⟨e.sourceId, e.distance, e.no_stairs⟩ : Neighbor) ∈ ns) ∧
      ∀ (op cp : ℚ),
        edgeCost (nodeMapOf data) op cp e.sourceId e.targetId
            ⟨e.targetId, e.distance, e.no_stairs⟩ =
          edgeCost (nodeMapOf data) op cp e.targetId e.sourceId
            ⟨e.sourceId, e.distance, e.no_stairs⟩) := by
  constructor
  · exact edgeCost_symm
  · intro data disallow e hmem hadm hs ht
    obtain ⟨l1, l2, hsplit⟩ := List.append_of_mem hmem
    have hinit : ∀ x, x ∈ data.nodes.map Node.id →
        (lookupA (l1.foldl (addEdge disallow)
          (data.nodes.foldl (fun g n => insertA g n.id ([] : List Neighbor)) []))
          x).isSome = true := by
      intro x hx
      rw [lookupA_foldl_addEdge_isSome, lookupA_foldl_insert_const]
      simp [hx]
    have hnew := addEdge_mem_new disallow e hadm (hinit _ hs) (hinit _ ht)
    have hfold : adjOf data disallow = l2.foldl (addEdge disallow)
        (addEdge disallow (l1.foldl (addEdge disallow)
          (data.nodes.foldl (fun g n => insertA g n.id ([] : List Neighbor)) [])) e) := by
      unfold adjOf
      rw [hsplit, List.foldl_append, List.foldl_cons]
    refine ⟨?_, ?_, ?_⟩
    · obtain ⟨ns, hns, hm⟩ := hnew.1
      rw [hfold]
      exact foldl_addEdge_mem_preserved disallow l2 _ hns hm
    · obtain ⟨ns, hns, hm⟩ := hnew.2
      rw [hfold]
      exact foldl_addEdge_mem_preserved disallow l2 _ hns hm
    · intro op cp
      rw [edgeCost_symm]
      exact edgeCost_neighbor_id _ _ _ _ _ _ _ _ _

/-- C6 witness: the fixture edge of `gTwo` at concrete penalties. -/
theorem C6_witness :
    ({ id := "e1", sourceId := "a", targetId := "b", distance := 3,
       no_stairs := true } : Edge) ∈ gTwo.edges ∧
    ¬(false = true ∧ true = false) ∧
    (∃ ns, lookupA (adjOf gTwo false) "a" = some ns ∧
      (⟨"b", 3, true⟩ : Neighbor) ∈ ns) ∧
    (∃ ns, lookupA (adjOf gTwo false) "b" = some ns ∧
      (⟨"a", 3, true⟩ : Neighbor) ∈ ns) ∧
    edgeCost (nodeMapOf gTwo) 5 7 "a" "b" ⟨"b", 3, true⟩ =
      edgeCost (nodeMapOf gTwo) 5 7 "b" "a" ⟨"a", 3, true⟩ := by
  have h := C6_cost_symmetric_bidirectional.2 gTwo false
    { id := "e1", sourceId := "a", targetId := "b", distance := 3, no_stairs := true }
    (by decide) (by decide) (by decide) (by decide)
  exact ⟨by decide, by decide, h.1, h.2.1, h.2.2 5 7⟩

end ClaimC6

section ClaimC9

/-- C9: negative preference penalties are clamped to zero rather than
rejected — a call with a negative outdoorPenalty (resp. a negative
campusBoundaryPenalty) returns exactly the same result as the call with that
penalty replaced by 0; no error is possible since the model is a total
function. -/
theorem C9_negative_penalties_clamped (fuel : Nat) (data : GraphData)
    (startId endId : String) (prefs : RoutePreferences) (q : ℚ) (hq : q < 0) :
    (findShortestPathFuel fuel data startId endId
        { prefs with outdoorPenalty := some q } =
      findShortestPathFuel fuel data startId endId
        { prefs with outdoorPenalty := some 0 }) ∧
    (findShortestPathFuel fuel data startId endId
        { prefs with campusBoundaryPenalty := some q } =
      findShortestPathFuel fuel data startId endId
        { prefs with campusBoundaryPenalty := some 0 }) := by
  have h0 : max (0 : ℚ) q = 0 := max_eq_left hq.le
  constructor <;> simp [findShortestPathFuel, h0]

/-- C9 witness: a concrete negative penalty on the two-node fixture. -/
theorem C9_witness :
    (-1 : ℚ) < 0 ∧
    ((findShortestPathFuel 4 gTwo "a" "b"
        { ({} : RoutePreferences) with outdoorPenalty := some (-1) } =
      findShortestPathFuel 4 gTwo "a" "b"
        { ({} : RoutePreferences) with outdoorPenalty := some 0 }) ∧
    (findShortestPathFuel 4 gTwo "a" "b"
        { ({} : RoutePreferences) with campusBoundaryPenalty := some (-1) } =
      findShortestPathFuel 4 gTwo "a" "b"
        { ({} : RoutePreferences) with campusBoundaryPenalty := some 0 })) :=
  ⟨by norm_num, C9_negative_penalties_clamped 4 gTwo "a" "b" {} (-1) (by norm_num)⟩

end ClaimC9

section ReconLemmas

theorem reconstructFuel_null (prev : List (String × Option String)) (fuel : Nat)
    (acc : List JSVal) : reconstructFuel prev fuel JSVal.null acc = some acc := by
  cases fuel <;> simp [reconstructFuel]

theorem reconstructFuel_undef_diverges {prev : List (String × Option String)}
    (hu : lookupA prev "undefined" = none) (fuel : Nat) (acc : List JSVal) :
    reconstructFuel prev fuel JSVal.undef acc = none := by
  induction fuel generalizing acc with
  | zero => simp [reconstructFuel]
  | succ f ih =>
    have hstep : walkStep prev JSVal.undef = JSVal.undef := by
      simp [walkStep, keyOfJS, hu]
    simp only [reconstructFuel, hstep]
    simpa using ih (JSVal.undef :: acc)

theorem reconstructFuel_missing_diverges {prev : List (String × Option String)}
    {v : String} (hv : lookupA prev v = none)
    (hu : lookupA prev "undefined" = none) (fuel : Nat) (acc : List JSVal) :
    reconstructFuel prev fuel (JSVal.str v) acc = none := by
  cases fuel with
  | zero => simp [reconstructFuel]
  | succ f =>
    have hstep : walkStep prev (JSVal.str v) = JSVal.undef := by
      simp [walkStep, keyOfJS, hv]
    simp only [reconstructFuel, hstep]
    simpa using reconstructFuel_undef_diverges hu f (JSVal.str v :: acc)

theorem reconstructFuel_chain (prev : List (String × Option String)) :
    ∀ (fuel : Nat) (u : JSVal) (acc res : List JSVal),
      reconstructFuel prev fuel u acc = some res →
      List.Chain' (fun x y => x = walkStep prev y) acc →
      (∀ h, acc.head? = some h → u = walkStep prev h) →
      List.Chain' (fun x y => x = walkStep prev y) res := by
  intro fuel
  induction fuel with
  | zero =>
    intro u acc res hres hacc _
    by_cases hn : u = JSVal.null
    · simp only [reconstructFuel, if_pos hn] at hres
      cases hres
      exact hacc
    · simp [reconstructFuel, hn] at hres
  | succ f ih =>
    intro u acc res hres hacc hlink
    by_cases hn : u = JSVal.null
    · simp only [reconstructFuel, if_pos hn] at hres
      cases hres
      exact hacc
    · simp only [reconstructFuel, if_neg hn] at hres
      refine ih (walkStep prev u) (u :: acc) res hres ?_ ?_
      · rw [List.chain'_cons']
        exact ⟨fun h hh => hlink h hh, hacc⟩
      · intro h hh
        simp only [List.head?_cons, Option.some.injEq] at hh
        rw [hh]

theorem reconstructFuel_mem {prev : List (String × Option String)}
    {V : List String}
    (hkeys : ∀ v, v ∈ V → (lookupA prev v).isSome = true)
    (hclosed : ∀ v s, lookupA prev v = some (some s) → s ∈ V) :
    ∀ (fuel : Nat) (v : String) (acc res : List JSVal), v ∈ V →
      (∀ x ∈ acc, ∃ w, x = JSVal.str w ∧ w ∈ V) →
      reconstructFuel prev fuel (JSVal.str v) acc = some res →
      ∀ x ∈ res, ∃ w, x = JSVal.str w ∧ w ∈ V := by
  intro fuel
  induction fuel with
  | zero =>
    intro v acc res _ _ hres
    simp [reconstructFuel] at hres
  | succ f ih =>
    intro v acc res hv hacc hres
    simp only [reconstructFuel] at hres
    rw [if_neg (by simp)] at hres
    obtain ⟨pv, hpv⟩ := Option.isSome_iff_exists.mp (hkeys v hv)
    cases pv with
    | none =>
      have hstep : walkStep prev (JSVal.str v) = JSVal.null := by
        simp [walkStep, keyOfJS, hpv]
      rw [hstep, reconstructFuel_null] at hres
      cases hres
      intro x hx
      rcases List.mem_cons.mp hx with hx | hx
      · exact ⟨v, hx, hv⟩
      · exact hacc x hx
    | some s =>
      have hstep : walkStep prev (JSVal.str v) = JSVal.str s := by
        simp [walkStep, keyOfJS, hpv]
      rw [hstep] at hres
      refine ih s (JSVal.str v :: acc) res (hclosed v s hpv) ?_ hres
      intro x hx
      rcases List.mem_cons.mp hx with hx | hx
      · exact ⟨v, hx, hv⟩
      · exact hacc x hx

theorem reconstructFuel_length {prev : List (String × Option String)} :
    ∀ (fuel : Nat) (u : JSVal) (acc res : List JSVal),
      reconstructFuel prev fuel u acc = some res →
      acc.length ≤ res.length ∧ (res.length = acc.length ↔ u = JSVal.null) := by
  intro fuel
  induction fuel with
  | zero =>
    intro u acc res hres
    by_cases hn : u = JSVal.null
    · simp only [reconstructFuel, if_pos hn] at hres
      cases hres
      exact ⟨le_refl _, by simp [hn]⟩
    · simp [reconstructFuel, hn] at hres
  | succ f ih =>
    intro u acc res hres
    by_cases hn : u = JSVal.null
    · simp only [reconstructFuel, if_pos hn] at hres
      cases hres
      exact ⟨le_refl _, by simp [hn]⟩
    · simp only [reconstructFuel, if_neg hn] at hres
      obtain ⟨hle, _⟩ := ih (walkStep prev u) (u :: acc) res hres
      simp only [List.length_cons] at hle
      exact ⟨by omega, by constructor <;> intro hh <;> [omega; exact absurd hh hn]⟩

end ReconLemmas

section ClaimC4

/-- C4: when the end id is missing from the node list, the reconstruction
walk starts at a key absent from `previous`, reads `undefined`, enters the
loop (because `undefined !== null`), and then follows
`previous[undefined]` forever: the model returns `none` for every fuel,
which is exactly the original's non-terminating run.  The spec instead
requires the call to surface "no path". -/
theorem C4_missing_end_diverges :
    ∀ fuel : Nat, findShortestPathFuel fuel gMissingEnd "a" "b" {} = none := by
  have hcore : ∀ fuel : Nat,
      findShortestPathCore fuel gMissingEnd "a" "b" false 0 0 = none := by
    intro fuel
    have hfin : dijkFinal gMissingEnd "a" "b" false 0 0 =
        ⟨[("a", (0 : WithTop ℚ)), ("a", (⊤ : WithTop ℚ))], [("a", none)]⟩ := by
      decide
    simp only [findShortestPathCore, hfin]
    rw [if_pos (by simp [lookupA])]
    rw [reconstructFuel_missing_diverges (by simp [lookupA]) (by simp [lookupA]) fuel []]
  intro fuel
  have hlift : findShortestPathFuel fuel gMissingEnd "a" "b" {} =
      findShortestPathCore fuel gMissingEnd "a" "b" false 0 0 := by
    simp [findShortestPathFuel]
  rw [hlift, hcore]

end ClaimC4

section ClaimC8

set_option allowUnsafeReducibility true
attribute [local semireducible] Rat.add

/-- C8: counterexample.  On a graph whose single node is literally named
"undefined", asking for the missing end id "zzz" makes the walk step from
"zzz" to `undefined`, whose coerced key "undefined" hits that node's
`previous` entry (`null`), so the loop exits and the call returns the path
`[undefined, "zzz"]` — a returned path with an element that is not the id of
any node in the input node list. -/
theorem C8_counterexample :
    findShortestPath gUndefinedNode "undefined" "zzz" {} =
      some (some [JSVal.undef, JSVal.str "zzz"]) ∧
    ¬ ∃ n, n ∈ gUndefinedNode.nodes ∧ n.id = "zzz" := by
  constructor
  · decide
  · decide

end ClaimC8

section LoopInvariants

theorem dijkLoopF_succ (nm : List (String × Node)) (adj : List (String × List Neighbor))
    (op cp : ℚ) (endId : String) (f : Nat) (pq : List String) (st : DijkState) :
    dijkLoopF nm adj op cp endId (f + 1) pq st =
      (match List.insertionSort (distRel st.dist) pq with
       | [] => st
       | u :: rest =>
         if u = "" then st
         else if u = endId then st
         else if lookupA st.dist u = some ⊤ then st
         else
           match lookupA adj u with
           | none => dijkLoopF nm adj op cp endId f rest st
           | some ns =>
             dijkLoopF nm adj op cp endId f rest
               (ns.foldl (relaxOne nm op cp u) st)) := rfl

theorem dijkLoopF_succ_nil {nm : List (String × Node)}
    {adj : List (String × List Neighbor)} {op cp : ℚ} {endId : String} {f : Nat}
    {pq : List String} {st : DijkState}
    (hm : List.insertionSort (distRel st.dist) pq = []) :
    dijkLoopF nm adj op cp endId (f + 1) pq st = st := by
  rw [dijkLoopF_succ, hm]

theorem dijkLoopF_succ_cons {nm : List (String × Node)}
    {adj : List (String × List Neighbor)} {op cp : ℚ} {endId : String} {f : Nat}
    {pq : List String} {st : DijkState} {u : String} {rest : List String}
    (hm : List.insertionSort (distRel st.dist) pq = u :: rest) :
    dijkLoopF nm adj op cp endId (f + 1) pq st =
      (if u = "" then st
       else if u = endId then st
       else if lookupA st.dist u = some ⊤ then st
       else
         match lookupA adj u with
         | none => dijkLoopF nm adj op cp endId f rest st
         | some ns =>
           dijkLoopF nm adj op cp endId f rest
             (ns.foldl (relaxOne nm op cp u) st)) := by
  rw [dijkLoopF_succ, hm]

theorem relaxOne_prev_cases (nm : List (String × Node)) (op cp : ℚ) (u : String)
    (st : DijkState) (n : Neighbor) :
    (relaxOne nm op cp u st n).prev = st.prev ∨
    (relaxOne nm op cp u st n).prev = insertA st.prev n.id (some u) := by
  cases h : lookupA st.dist n.id with
  | none =>
    left
    simp [relaxOne, h]
  | some dn =>
    simp only [relaxOne, h]
    split_ifs
    · right
      rfl
    · left
      rfl

theorem foldl_relaxOne_prev_inv {P : List (String × Option String) → Prop}
    (nm : List (String × Node)) (op cp : ℚ) (u : String) :
    ∀ (ns : List Neighbor) (st : DijkState),
      (∀ p n, n ∈ ns → P p → P (insertA p n.id (some u))) →
      P st.prev → P ((ns.foldl (relaxOne nm op cp u) st).prev) := by
  intro ns
  induction ns with
  | nil =>
    intro st _ hP
    exact hP
  | cons n rest ih =>
    intro st hins hP
    rw [List.foldl_cons]
    refine ih _ (fun p m hm hp => hins p m (List.mem_cons_of_mem _ hm) hp) ?_
    rcases relaxOne_prev_cases nm op cp u st n with h | h
    · rw [h]
      exact hP
    · rw [h]
      exact hins _ n (List.mem_cons_self _ _) hP

theorem dijkLoopF_prev_inv (nm : List (String × Node))
    (adj : List (String × List Neighbor)) (op cp : ℚ) (endId : String)
    (V : List String) (P : List (String × Option String) → Prop)
    (hstep : ∀ (u : String) (ns : List Neighbor), u ∈ V → lookupA adj u = some ns →
      ∀ (p : List (String × Option String)) (n : Neighbor), n ∈ ns →
        P p → P (insertA p n.id (some u))) :
    ∀ (fuel : Nat) (pq : List String) (st : DijkState), (∀ x ∈ pq, x ∈ V) →
      P st.prev → P ((dijkLoopF nm adj op cp endId fuel pq st).prev) := by
  intro fuel
  induction fuel with
  | zero =>
    intro pq st _ hP
    exact hP
  | succ f ih =>
    intro pq st hpq hP
    cases hm : List.insertionSort (distRel st.dist) pq with
    | nil =>
      rw [dijkLoopF_succ_nil hm]
      exact hP
    | cons u rest =>
      rw [dijkLoopF_succ_cons hm]
      have hmem : ∀ x ∈ u :: rest, x ∈ V := by
        intro x hx
        exact hpq x ((List.mem_insertionSort (distRel st.dist)).mp (hm ▸ hx))
      have hu : u ∈ V := hmem u (List.mem_cons_self _ _)
      have hrest : ∀ x ∈ rest, x ∈ V := fun x hx => hmem x (List.mem_cons_of_mem _ hx)
      split_ifs
      · exact hP
      · exact hP
      · exact hP
      · cases hadj : lookupA adj u with
        | none => exact ih rest st hrest hP
        | some ns =>
          refine ih rest _ hrest ?_
          exact foldl_relaxOne_prev_inv nm op cp u ns st
            (fun p n hn hp => hstep u ns hu hadj p n hn hp) hP

/-- The `previous` entries the loop can ever write: each maps some key `v` to
a popped node `u` such that the adjacency entry of `u` holds a neighbor with
id `v`. -/
def PrevFromAdj (adj : List (String × List Neighbor))
    (p : List (String × Option String)) : Prop :=
  ∀ v s, lookupA p v = some (some s) →
    ∃ ns n, lookupA adj s = some ns ∧ n ∈ ns ∧ n.id = v

/-- All non-null `previous` values lie in `V` (the node-id list). -/
def PrevValsIn (V : List String) (p : List (String × Option String)) : Prop :=
  ∀ v s, lookupA p v = some (some s) → s ∈ V

/-- Every id of `V` is a key of `previous`. -/
def PrevKeys (V : List String) (p : List (String × Option String)) : Prop :=
  ∀ v, v ∈ V → (lookupA p v).isSome = true

theorem prevFromAdj_insert {adj : List (String × List Neighbor)}
    {p : List (String × Option String)} {u : String} {ns : List Neighbor}
    {n : Neighbor} (hadj : lookupA adj u = some ns) (hn : n ∈ ns)
    (hP : PrevFromAdj adj p) : PrevFromAdj adj (insertA p n.id (some u)) := by
  intro v s hv
  rw [lookupA_insertA] at hv
  by_cases h : n.id = v
  · rw [if_pos h] at hv
    injection hv with h2
    injection h2 with h3
    exact ⟨ns, n, h3 ▸ hadj, hn, h⟩
  · rw [if_neg h] at hv
    exact hP v s hv

theorem prevValsIn_insert {V : List String} {p : List (String × Option String)}
    {u : String} {k : String} (hu : u ∈ V) (hP : PrevValsIn V p) :
    PrevValsIn V (insertA p k (some u)) := by
  intro v s hv
  rw [lookupA_insertA] at hv
  by_cases h : k = v
  · rw [if_pos h] at hv
    injection hv with h2
    injection h2 with h3
    exact h3 ▸ hu
  · rw [if_neg h] at hv
    exact hP v s hv

theorem prevKeys_insert {V : List String} {p : List (String × Option String)}
    {k : String} {w : Option String} (hP : PrevKeys V p) :
    PrevKeys V (insertA p k w) := by
  intro v hv
  rw [lookupA_insertA]
  by_cases h : k = v
  · rw [if_pos h]
    rfl
  · rw [if_neg h]
    exact hP v hv

/-- Neighbors registered in the adjacency map are exactly the admitted edges:
each entry under key `u` comes from an input edge, admitted past the stairs
filter, whose other endpoint is the entry's id, with the same distance and
`no_stairs` payload. -/
theorem adjOf_mem_edges {data : GraphData} {disallow : Bool} {u : String}
    {ns : List Neighbor} {n : Neighbor}
    (h : lookupA (adjOf data disallow) u = some ns) (hn : n ∈ ns) :
    ∃ e, e ∈ data.edges ∧ ¬(disallow = true ∧ e.no_stairs = false) ∧
      ((e.sourceId = u ∧ e.targetId = n.id) ∨ (e.targetId = u ∧ e.sourceId = n.id)) ∧
      n.distance = e.distance ∧ n.no_stairs = e.no_stairs := by
  have hstep : ∀ (g : List (String × List Neighbor)) (k : String) (nb : Neighbor)
      (x : String) (xs : List Neighbor) (m : Neighbor),
      lookupA (adjInsert g k nb) x = some xs → m ∈ xs →
      (∃ ys, lookupA g x = some ys ∧ m ∈ ys) ∨ (x = k ∧ m = nb) := by
    intro g k nb x xs m hx hm
    unfold adjInsert at hx
    cases hk : lookupA g k with
    | none =>
      rw [hk] at hx
      exact Or.inl ⟨xs, hx, hm⟩
    | some ks =>
      rw [hk, lookupA_insertA] at hx
      by_cases hkx : k = x
      · rw [if_pos hkx] at hx
        injection hx with h2
        rcases List.mem_append.mp (h2 ▸ hm) with h3 | h3
        · exact Or.inl ⟨ks, hkx ▸ hk, h3⟩
        · exact Or.inr ⟨hkx.symm, (List.mem_singleton.mp h3)⟩
      · rw [if_neg hkx] at hx
        exact Or.inl ⟨xs, hx, hm⟩
  let Inv : List (String × List Neighbor) → Prop := fun g =>
    ∀ x xs m, lookupA g x = some xs → m ∈ xs →
      ∃ e, e ∈ data.edges ∧ ¬(disallow = true ∧ e.no_stairs = false) ∧
        ((e.sourceId = x ∧ e.targetId = m.id) ∨ (e.targetId = x ∧ e.sourceId = m.id)) ∧
        m.distance = e.distance ∧ m.no_stairs = e.no_stairs
  have haddEdge : ∀ (g : List (String × List Neighbor)) (e : Edge), e ∈ data.edges →
      Inv g → Inv (addEdge disallow g e) := by
    intro g e he hg x xs m hx hm
    unfold addEdge at hx
    split at hx
    · exact hg x xs m hx hm
    · rename_i hguard
      have hadm : ¬(disallow = true ∧ e.no_stairs = false) := by
        intro ⟨h1, h2⟩
        exact hguard (by rw [h1, h2]; rfl)
      rcases hstep _ _ _ _ _ _ hx hm with ⟨ys, hys, hmy⟩ | ⟨hxk, hmn⟩
      · rcases hstep _ _ _ _ _ _ hys hmy with ⟨zs, hzs, hmz⟩ | ⟨hxk, hmn⟩
        · exact hg x zs m hzs hmz
        · exact ⟨e, he, hadm, Or.inl ⟨hxk.symm, by rw [hmn]⟩, by rw [hmn], by rw [hmn]⟩
      · exact ⟨e, he, hadm, Or.inr ⟨hxk.symm, by rw [hmn]⟩, by rw [hmn], by rw [hmn]⟩
  have hfold : ∀ (es : List Edge) (g : List (String × List Neighbor)),
      (∀ e ∈ es, e ∈ data.edges) → Inv g → Inv (es.foldl (addEdge disallow) g) := by
    intro es
    induction es with
    | nil => intro g _ hg; exact hg
    | cons e rest ih =>
      intro g hes hg
      rw [List.foldl_cons]
      exact ih _ (fun x hx => hes x (List.mem_cons_of_mem _ hx))
        (haddEdge g e (hes e (List.mem_cons_self _ _)) hg)
  have hinit : Inv (data.nodes.foldl (fun g n => insertA g n.id []) []) := by
    intro x xs m hx hm
    rw [lookupA_foldl_insert_const] at hx
    split at hx
    · injection hx with h2
      exact absurd (h2 ▸ hm) (List.not_mem_nil m)
    · exact absurd hx (by simp [lookupA])
  exact hfold data.edges _ (fun e he => he) hinit u ns n h hn

end LoopInvariants

section ResultCharacterization

/-- A successful path result comes from the reconstruction walk over the
final `previous` map, started at the end id with empty accumulator. -/
theorem core_path_of_result {fuel : Nat} {data : GraphData}
    {startId endId : String} {disallow : Bool} {op cp : ℚ} {path : List JSVal}
    (hres : findShortestPathCore fuel data startId endId disallow op cp =
      some (some path)) :
    reconstructFuel (dijkFinal data startId endId disallow op cp).prev fuel
      (JSVal.str endId) [] = some path ∧ path ≠ [] ∧
    (lookupA (dijkFinal data startId endId disallow op cp).prev endId ≠ some none ∨
      endId = startId) := by
  unfold findShortestPathCore at hres
  split at hres
  · rename_i hcond
    cases hrec : reconstructFuel (dijkFinal data startId endId disallow op cp).prev
        fuel (JSVal.str endId) [] with
    | none =>
      rw [hrec] at hres
      exact absurd hres (by simp)
    | some p =>
      rw [hrec] at hres
      simp only [Option.some.injEq] at hres
      split at hres
      · injection hres with h2
        subst h2
        rename_i hlen
        refine ⟨rfl, ?_, hcond⟩
        intro hnil
        rw [hnil] at hlen
        simp at hlen
      · exact absurd hres (by simp)
  · exact absurd hres (by simp)

theorem lookupA_prev0Of (data : GraphData) (x : String) :
    lookupA (prev0Of data) x =
      if x ∈ data.nodes.map Node.id then some none else none := by
  unfold prev0Of
  rw [lookupA_foldl_insert_const]
  split <;> simp [lookupA]

theorem lookupA_dist0Of (data : GraphData) (x : String) :
    lookupA (dist0Of data) x =
      if x ∈ data.nodes.map Node.id then some ⊤ else none := by
  unfold dist0Of
  rw [lookupA_foldl_insert_const]
  split <;> simp [lookupA]

/-- The final `previous` map only stores adjacency-justified links. -/
theorem dijkFinal_prevFromAdj (data : GraphData) (startId endId : String)
    (disallow : Bool) (op cp : ℚ) :
    PrevFromAdj (adjOf data disallow)
      (dijkFinal data startId endId disallow op cp).prev := by
  unfold dijkFinal dijkLoop
  refine dijkLoopF_prev_inv _ _ op cp endId (data.nodes.map Node.id) _
    ?_ _ _ _ (fun x hx => hx) ?_
  · intro u ns _ hadj p n hn hP
    exact prevFromAdj_insert hadj hn hP
  · intro v s hv
    rw [lookupA_prev0Of] at hv
    split at hv
    · exact absurd hv (by simp)
    · exact absurd hv (by simp)

/-- All non-null values of the final `previous` map are node ids. -/
theorem dijkFinal_prevValsIn (data : GraphData) (startId endId : String)
    (disallow : Bool) (op cp : ℚ) :
    PrevValsIn (data.nodes.map Node.id)
      (dijkFinal data startId endId disallow op cp).prev := by
  unfold dijkFinal dijkLoop
  refine dijkLoopF_prev_inv _ _ op cp endId (data.nodes.map Node.id) _
    ?_ _ _ _ (fun x hx => hx) ?_
  · intro u ns hu _ p n hn hP
    exact prevValsIn_insert hu hP
  · intro v s hv
    rw [lookupA_prev0Of] at hv
    split at hv
    · exact absurd hv (by simp)
    · exact absurd hv (by simp)

/-- Every node id remains a key of the final `previous` map. -/
theorem dijkFinal_prevKeys (data : GraphData) (startId endId : String)
    (disallow : Bool) (op cp : ℚ) :
    PrevKeys (data.nodes.map Node.id)
      (dijkFinal data startId endId disallow op cp).prev := by
  unfold dijkFinal dijkLoop
  refine dijkLoopF_prev_inv _ _ op cp endId (data.nodes.map Node.id) _
    ?_ _ _ _ (fun x hx => hx) ?_
  · intro u ns _ _ p n hn hP
    exact prevKeys_insert hP
  · intro v hv
    rw [lookupA_prev0Of, if_pos hv]
    rfl

end ResultCharacterization

section ClaimC3

/-- C3: for every graph, preferences with disallowStairs true, endpoints and
fuel, every adjacent pair of node ids in a returned path is connected by
some input edge whose `no_stairs` flag is not false: edges requiring stairs
are filtered out of the adjacency, and each step of the reconstructed path
is justified by a registered adjacency entry. -/
theorem C3_stairs_edges_never_traversed (fuel : Nat) (data : GraphData)
    (startId endId : String) (prefs : RoutePreferences)
    (hstairs : prefs.disallowStairs = some true) (path : List JSVal)
    (hres : findShortestPathFuel fuel data startId endId prefs = some (some path)) :
    ∀ (i : Nat) (a b : String), path.get? i = some (JSVal.str a) →
      path.get? (i + 1) = some (JSVal.str b) →
      ∃ e, e ∈ data.edges ∧
        ((e.sourceId = a ∧ e.targetId = b) ∨ (e.sourceId = b ∧ e.targetId = a)) ∧
        e.no_stairs = true := by
  intro i a b hga hgb
  rw [findShortestPathFuel, hstairs] at hres
  obtain ⟨hrec, -, -⟩ := core_path_of_result hres
  set prevF := (dijkFinal data startId endId ((some true).getD false)
    (max 0 (prefs.outdoorPenalty.getD 0))
    (max 0 (prefs.campusBoundaryPenalty.getD 0))).prev with hprevF
  have hchain : List.Chain' (fun x y => x = walkStep prevF y) path :=
    reconstructFuel_chain prevF fuel (JSVal.str endId) [] path hrec
      (List.chain'_nil) (by intro h hh; simp at hh)
  have hab : JSVal.str a = walkStep prevF (JSVal.str b) := by
    obtain ⟨hia, hia2⟩ := List.get?_eq_some.mp hga
    obtain ⟨hib, hib2⟩ := List.get?_eq_some.mp hgb
    have := List.chain'_iff_get.mp hchain i (by omega)
    rw [List.get?_eq_get hia, Option.some.injEq] at hga
    rw [List.get?_eq_get hib, Option.some.injEq] at hgb
    rw [hga, hgb] at this
    exact this
  have hlink : lookupA prevF b = some (some a) := by
    unfold walkStep keyOfJS at hab
    cases hl : lookupA prevF b with
    | none =>
      rw [hl] at hab
      exact absurd hab (by simp)
    | some w =>
      cases w with
      | none =>
        rw [hl] at hab
        exact absurd hab (by simp)
      | some s =>
        rw [hl] at hab
        injection hab with h2
        rw [h2]
  obtain ⟨ns, n, hadj, hn, hid⟩ :=
    dijkFinal_prevFromAdj data startId endId ((some true).getD false)
      (max 0 (prefs.outdoorPenalty.getD 0))
      (max 0 (prefs.campusBoundaryPenalty.getD 0)) b a hlink
  obtain ⟨e, he, hadm, hends, -, hns⟩ := adjOf_mem_edges hadj hn
  have hstairs2 : e.no_stairs = true := by
    by_contra h2
    exact hadm ⟨rfl, by simpa using h2⟩
  refine ⟨e, he, ?_, hstairs2⟩
  rw [hid] at hends
  rcases hends with ⟨h1, h2⟩ | ⟨h1, h2⟩
  · exact Or.inl ⟨h1, h2⟩
  · exact Or.inr ⟨h2, h1⟩

end ClaimC3

section ClaimC8Amended

/-- Shared helper: with the end id among the node ids, every element of a
returned path is the id of a node of the input list. -/
theorem returned_path_ids (fuel : Nat) (data : GraphData)
    (startId endId : String) (prefs : RoutePreferences)
    (hend : endId ∈ data.nodes.map Node.id) (path : List JSVal)
    (hres : findShortestPathFuel fuel data startId endId prefs = some (some path)) :
    ∀ x ∈ path, ∃ v, x = JSVal.str v ∧ v ∈ data.nodes.map Node.id := by
  rw [findShortestPathFuel] at hres
  obtain ⟨hrec, -, -⟩ := core_path_of_result hres
  exact reconstructFuel_mem
    (dijkFinal_prevKeys data startId endId (prefs.disallowStairs.getD false)
      (max 0 (prefs.outdoorPenalty.getD 0)) (max 0 (prefs.campusBoundaryPenalty.getD 0)))
    (dijkFinal_prevValsIn data startId endId (prefs.disallowStairs.getD false)
      (max 0 (prefs.outdoorPenalty.getD 0)) (max 0 (prefs.campusBoundaryPenalty.getD 0)))
    fuel endId [] path hend (by intro x hx; exact absurd hx (List.not_mem_nil x)) hrec

/-- C8 (amended): graph construction never fails (the model is a total
function) and, provided the end id resolves to a node of the input node
list, every element of a returned path is the id of a node in the input node
list — in particular no step of a returned path can involve an edge endpoint
that does not resolve to a node. -/
theorem C8_path_ids_in_nodes_amended (fuel : Nat) (data : GraphData)
    (startId endId : String) (prefs : RoutePreferences)
    (hend : endId ∈ data.nodes.map Node.id) (path : List JSVal)
    (hres : findShortestPathFuel fuel data startId endId prefs = some (some path)) :
    ∀ x ∈ path, ∃ v, x = JSVal.str v ∧ v ∈ data.nodes.map Node.id :=
  returned_path_ids fuel data startId endId prefs hend path hres

end ClaimC8Amended

section ClaimWitnessRuns

set_option allowUnsafeReducibility true
attribute [local semireducible] Rat.add

/-- C3 witness: the spec's stairs scenario, where the returned path [A, B, C]
must avoid the direct stairs edge; the adjacent pair (A, B) is backed by the
stair-free edge e1. -/
theorem C3_witness :
    ({ disallowStairs := some true } : RoutePreferences).disallowStairs = some true ∧
    findShortestPathFuel 8 gABC "A" "C" { disallowStairs := some true } =
      some (some [JSVal.str "A", JSVal.str "B", JSVal.str "C"]) ∧
    ([JSVal.str "A", JSVal.str "B", JSVal.str "C"].get? 0 = some (JSVal.str "A")) ∧
    ([JSVal.str "A", JSVal.str "B", JSVal.str "C"].get? 1 = some (JSVal.str "B")) ∧
    (∃ e, e ∈ gABC.edges ∧
      ((e.sourceId = "A" ∧ e.targetId = "B") ∨ (e.sourceId = "B" ∧ e.targetId = "A")) ∧
      e.no_stairs = true) :=
  ⟨rfl, by decide, by decide, by decide,
    C3_stairs_edges_never_traversed 8 gABC "A" "C" { disallowStairs := some true }
      rfl [JSVal.str "A", JSVal.str "B", JSVal.str "C"] (by decide)
      0 "A" "B" (by decide) (by decide)⟩

/-- C8 (amended) witness: a successful run on the two-node fixture, whose
returned path elements are all node ids. -/
theorem C8_amended_witness :
    "b" ∈ gTwo.nodes.map Node.id ∧
    findShortestPathFuel 7 gTwo "a" "b" {} =
      some (some [JSVal.str "a", JSVal.str "b"]) ∧
    (∃ v, JSVal.str "a" = JSVal.str v ∧ v ∈ gTwo.nodes.map Node.id) :=
  ⟨by decide, by decide,
    C8_path_ids_in_nodes_amended 7 gTwo "a" "b" {} (by decide)
      [JSVal.str "a", JSVal.str "b"] (by decide) (JSVal.str "a") (by decide)⟩

end ClaimWitnessRuns

section ClaimC7

theorem reconstructFuel_one_step {prev : List (String × Option String)}
    {v : String} (hv : lookupA prev v = some none) (fuel : Nat) (hf : 1 ≤ fuel)
    (acc : List JSVal) :
    reconstructFuel prev fuel (JSVal.str v) acc = some (JSVal.str v :: acc) := by
  cases fuel with
  | zero => omega
  | succ f =>
    have hstep : walkStep prev (JSVal.str v) = JSVal.null := by
      simp [walkStep, keyOfJS, hv]
    simp only [reconstructFuel]
    rw [if_neg (by simp), hstep, reconstructFuel_null]

/-- With the start id present, the first element shifted from the sorted
queue is the start node: it is the only entry whose tentative distance is
not `Infinity`. -/
theorem sort_head_eq_start (data : GraphData) (startId : String)
    (h : startId ∈ data.nodes.map Node.id) {u : String} {rest : List String}
    (hm : List.insertionSort (distRel (insertA (dist0Of data) startId 0))
      (data.nodes.map Node.id) = u :: rest) :
    u = startId := by
  by_contra hne
  have hu : u ∈ data.nodes.map Node.id :=
    (List.mem_insertionSort _).mp (hm ▸ List.mem_cons_self u rest)
  have hsm : startId ∈ u :: rest :=
    hm ▸ (List.mem_insertionSort _).mpr h
  have hsr : startId ∈ rest := by
    rcases List.mem_cons.mp hsm with h2 | h2
    · exact absurd h2.symm hne
    · exact h2
  have hsorted := List.sorted_insertionSort
    (distRel (insertA (dist0Of data) startId 0)) (data.nodes.map Node.id)
  rw [hm] at hsorted
  have hrel : distRel (insertA (dist0Of data) startId 0) u startId :=
    (List.sorted_cons.mp hsorted).1 startId hsr
  unfold distRel dGet at hrel
  rw [lookupA_insertA] at hrel
  rw [lookupA_insertA] at hrel
  rw [if_neg (fun h2 : startId = u => hne h2.symm), if_pos rfl,
    lookupA_dist0Of, if_pos hu] at hrel
  simp only [Option.getD_some] at hrel
  rw [top_le_iff] at hrel
  exact absurd hrel (by simp)

/-- When start and end coincide and the start id is a node, the Dijkstra loop
exits on its very first pop and the state is untouched. -/
theorem dijkFinal_start_eq_end (data : GraphData) (startId : String)
    (h : startId ∈ data.nodes.map Node.id) (disallow : Bool) (op cp : ℚ) :
    dijkFinal data startId startId disallow op cp =
      ⟨insertA (dist0Of data) startId 0, prev0Of data⟩ := by
  unfold dijkFinal dijkLoop
  cases hm : List.insertionSort
      (distRel (insertA (dist0Of data) startId 0)) (data.nodes.map Node.id) with
  | nil =>
    have hnil : data.nodes.map Node.id = [] := by
      have h2 := List.perm_insertionSort
        (distRel (insertA (dist0Of data) startId 0)) (data.nodes.map Node.id)
      rw [hm] at h2
      exact (List.Perm.symm h2).eq_nil
    rw [hnil]
    rfl
  | cons u rest =>
    have hu : u = startId := sort_head_eq_start data startId h hm
    have hlen : (data.nodes.map Node.id).length = rest.length + 1 := by
      have h2 := List.length_insertionSort
        (distRel (insertA (dist0Of data) startId 0)) (data.nodes.map Node.id)
      rw [hm] at h2
      simpa using h2.symm
    rw [hlen, dijkLoopF_succ_cons hm]
    by_cases he : u = ""
    · rw [if_pos he]
    · rw [if_neg he, if_pos hu]

/-- C7: if the start id is a node and start equals end, the call returns the
one-element path [startId], whose summed edge cost is 0; conversely every
returned path has length at least 1, and length exactly 1 only when start
equals end. -/
theorem C7_single_node_path (data : GraphData) (startId endId : String)
    (prefs : RoutePreferences) :
    (startId ∈ data.nodes.map Node.id → startId = endId →
      findShortestPath data startId endId prefs =
        some (some [JSVal.str startId]) ∧
      WalkCost (adjOf data (prefs.disallowStairs.getD false))
        (cfOf data (max 0 (prefs.outdoorPenalty.getD 0))
          (max 0 (prefs.campusBoundaryPenalty.getD 0)))
        startId startId [startId] 0) ∧
    (∀ (fuel : Nat) (path : List JSVal),
      findShortestPathFuel fuel data startId endId prefs = some (some path) →
      1 ≤ path.length ∧ (path.length = 1 → startId = endId)) := by
  constructor
  · intro h1 h2
    subst h2
    refine ⟨?_, WalkCost.single startId⟩
    show findShortestPathCore (data.nodes.length + 5) data startId startId
      (prefs.disallowStairs.getD false) (max 0 (prefs.outdoorPenalty.getD 0))
      (max 0 (prefs.campusBoundaryPenalty.getD 0)) = some (some [JSVal.str startId])
    unfold findShortestPathCore
    rw [dijkFinal_start_eq_end data startId h1]
    rw [if_pos (Or.inr rfl)]
    rw [reconstructFuel_one_step (by rw [lookupA_prev0Of, if_pos h1]) _ (by omega) []]
    rfl
  · intro fuel path hres
    rw [findShortestPathFuel] at hres
    obtain ⟨hrec, hne, hcond⟩ := core_path_of_result hres
    refine ⟨?_, ?_⟩
    · cases path with
      | nil => exact absurd rfl hne
      | cons x xs => simp
    · intro hlen1
      cases fuel with
      | zero => simp [reconstructFuel] at hrec
      | succ f =>
        rw [show reconstructFuel (dijkFinal data startId endId
            (prefs.disallowStairs.getD false) (max 0 (prefs.outdoorPenalty.getD 0))
            (max 0 (prefs.campusBoundaryPenalty.getD 0))).prev (f + 1)
            (JSVal.str endId) [] =
          reconstructFuel (dijkFinal data startId endId
            (prefs.disallowStairs.getD false) (max 0 (prefs.outdoorPenalty.getD 0))
            (max 0 (prefs.campusBoundaryPenalty.getD 0))).prev f
            (walkStep (dijkFinal data startId endId
              (prefs.disallowStairs.getD false) (max 0 (prefs.outdoorPenalty.getD 0))
              (max 0 (prefs.campusBoundaryPenalty.getD 0))).prev (JSVal.str endId))
            [JSVal.str endId] from by
          simp only [reconstructFuel]
          rw [if_neg (by simp)]] at hrec
        obtain ⟨-, hiff⟩ := reconstructFuel_length f _ _ path hrec
        have hnull := hiff.mp (by simpa using hlen1)
        have hlook : lookupA (dijkFinal data startId endId
            (prefs.disallowStairs.getD false) (max 0 (prefs.outdoorPenalty.getD 0))
            (max 0 (prefs.campusBoundaryPenalty.getD 0))).prev endId = some none := by
          unfold walkStep keyOfJS at hnull
          cases hl : lookupA (dijkFinal data startId endId
              (prefs.disallowStairs.getD false) (max 0 (prefs.outdoorPenalty.getD 0))
              (max 0 (prefs.campusBoundaryPenalty.getD 0))).prev endId with
          | none =>
            rw [hl] at hnull
            exact absurd hnull (by simp)
          | some w =>
            cases w with
            | none => rfl
            | some s =>
              rw [hl] at hnull
              exact absurd hnull (by simp)
        rcases hcond with hcond | hcond
        · exact absurd hlook hcond
        · exact hcond.symm

end ClaimC7

section ClaimC7Witness

set_option allowUnsafeReducibility true
attribute [local semireducible] Rat.add

/-- C7 witness: start equals end on the two-node fixture. -/
theorem C7_witness :
    ("a" ∈ gTwo.nodes.map Node.id) ∧
    (findShortestPath gTwo "a" "a" {} = some (some [JSVal.str "a"]) ∧
      WalkCost (adjOf gTwo (({} : RoutePreferences).disallowStairs.getD false))
        (cfOf gTwo (max 0 (({} : RoutePreferences).outdoorPenalty.getD 0))
          (max 0 (({} : RoutePreferences).campusBoundaryPenalty.getD 0)))
        "a" "a" ["a"] 0) ∧
    (findShortestPathFuel 7 gTwo "a" "a" {} = some (some [JSVal.str "a"])) ∧
    (1 ≤ [JSVal.str "a"].length ∧ ([JSVal.str "a"].length = 1 → "a" = "a")) :=
  ⟨by decide,
    (C7_single_node_path gTwo "a" "a" {}).1 (by decide) rfl,
    by decide,
    (C7_single_node_path gTwo "a" "a" {}).2 7 [JSVal.str "a"] (by decide)⟩

end ClaimC7Witness

section ClaimC2

/-- C2: when outdoor minimization is active, both endpoints are indoor-safe
nodes of the graph, and the indoor-only search returns a non-empty path,
that path is the overall result — the full-graph fallback branch is not
consulted — and every element of the returned path is the id of an
indoor-safe node. -/
theorem C2_indoor_first_preferred (g : GraphData) (startNode endNode : Node)
    (prefs : RoutePreferences) (p : List JSVal)
    (hs : startNode ∈ g.nodes) (he : endNode ∈ g.nodes)
    (hsafe1 : isIndoorSafe startNode = true) (hsafe2 : isIndoorSafe endNode = true)
    (hphase1 : findShortestPath (indoorGraphOf g) startNode.id endNode.id
      { prefs with outdoorPenalty := some 0 } = some (some p))
    (hnonempty : p ≠ []) :
    chooseRoute g startNode endNode true prefs = some (some p) ∧
    ∀ x ∈ p, ∃ n, n ∈ g.nodes ∧ isIndoorSafe n = true ∧ x = JSVal.str n.id := by
  have hmem1 : startNode.id ∈ (g.nodes.filter isIndoorSafe).map Node.id :=
    List.mem_map.mpr ⟨startNode, List.mem_filter.mpr ⟨hs, hsafe1⟩, rfl⟩
  have hmem2 : endNode.id ∈ (g.nodes.filter isIndoorSafe).map Node.id :=
    List.mem_map.mpr ⟨endNode, List.mem_filter.mpr ⟨he, hsafe2⟩, rfl⟩
  constructor
  · unfold chooseRoute
    rw [if_pos (by rw [hsafe1, hsafe2]; rfl), if_pos ⟨hmem1, hmem2⟩, hphase1]
    show (if 0 < p.length then some (some p)
      else findShortestPath g startNode.id endNode.id prefs) = some (some p)
    rw [if_pos (List.length_pos.mpr hnonempty)]
  · intro x hx
    have hids := returned_path_ids ((indoorGraphOf g).nodes.length + 5)
      (indoorGraphOf g) startNode.id endNode.id
      { prefs with outdoorPenalty := some 0 } hmem2 p hphase1 x hx
    obtain ⟨v, hxv, hv⟩ := hids
    obtain ⟨n, hn, hnv⟩ := List.mem_map.mp hv
    obtain ⟨hng, hnsafe⟩ := List.mem_filter.mp hn
    exact ⟨n, hng, hnsafe, by rw [hxv, hnv]⟩

end ClaimC2

section ClaimC2Witness

set_option allowUnsafeReducibility true
attribute [local semireducible] Rat.add

/-- C2 witness: the two-node indoor fixture with outdoor minimization on. -/
theorem C2_witness :
    ({ id := "a", no_stairs := true, indoor := some true } : Node) ∈ gTwo.nodes ∧
    ({ id := "b", no_stairs := true, indoor := some true } : Node) ∈ gTwo.nodes ∧
    isIndoorSafe { id := "a", no_stairs := true, indoor := some true } = true ∧
    isIndoorSafe { id := "b", no_stairs := true, indoor := some true } = true ∧
    findShortestPath (indoorGraphOf gTwo) "a" "b"
      { ({} : RoutePreferences) with outdoorPenalty := some 0 } =
      some (some [JSVal.str "a", JSVal.str "b"]) ∧
    chooseRoute gTwo { id := "a", no_stairs := true, indoor := some true }
      { id := "b", no_stairs := true, indoor := some true } true {} =
      some (some [JSVal.str "a", JSVal.str "b"]) ∧
    (∃ n, n ∈ gTwo.nodes ∧ isIndoorSafe n = true ∧ JSVal.str "a" = JSVal.str n.id) := by
  have h := C2_indoor_first_preferred gTwo
    { id := "a", no_stairs := true, indoor := some true }
    { id := "b", no_stairs := true, indoor := some true } {}
    [JSVal.str "a", JSVal.str "b"] (by decide) (by decide) (by decide) (by decide)
    (by decide) (by decide)
  exact ⟨by decide, by decide, by decide, by decide, by decide, h.1,
    h.2 (JSVal.str "a") (by decide)⟩

end ClaimC2Witness

section WalkLemmas

theorem walkCost_head {adj : List (String × List Neighbor)}
    {cf : String → String → Neighbor → ℚ} {a b : String} {p : List String} {c : ℚ}
    (h : WalkCost adj cf a b p c) : ∃ t, p = a :: t := by
  cases h with
  | single => exact ⟨[], rfl⟩
  | cons n ns hadj hmem hid tail => exact ⟨_, rfl⟩

theorem walkCost_snoc {adj : List (String × List Neighbor)}
    {cf : String → String → Neighbor → ℚ} {a v : String} {q : List String} {c1 : ℚ}
    (h : WalkCost adj cf a v q c1) :
    ∀ {ns : List Neighbor} {n : Neighbor} {w : String},
      lookupA adj v = some ns → n ∈ ns → n.id = w →
      WalkCost adj cf a w (q ++ [w]) (c1 + cf v w n) := by
  induction h with
  | single u =>
    intro ns n w hadj hn hid
    have h2 := @WalkCost.cons adj cf _ _ _ _ _ n ns hadj hn hid
      (WalkCost.single w)
    rw [add_zero] at h2
    rw [zero_add]
    exact h2
  | cons m ms hadj2 hm hid2 tail ih =>
    intro ns n w hadj hn hid
    have h2 := @WalkCost.cons adj cf _ _ _ _ _ m ms hadj2 hm hid2
      (ih hadj hn hid)
    rw [← add_assoc] at h2
    exact h2

theorem walkCost_snoc_cases {adj : List (String × List Neighbor)}
    {cf : String → String → Neighbor → ℚ} {a b : String} {p : List String} {c : ℚ}
    (h : WalkCost adj cf a b p c) :
    (a = b ∧ p = [a] ∧ c = 0) ∨
    ∃ v q c1 ns n, WalkCost adj cf a v q c1 ∧ lookupA adj v = some ns ∧ n ∈ ns ∧
      n.id = b ∧ c = c1 + cf v b n ∧ p = q ++ [b] ∧ q.length + 1 = p.length := by
  induction h with
  | single u => exact Or.inl ⟨rfl, rfl, rfl⟩
  | cons m ms hadj2 hm hid2 tail ih =>
    rename_i u v w p2 c2
    right
    rcases ih with ⟨hvw, hp, hc⟩ | ⟨v2, q, c1, ns, n, hwalk, hadj, hn, hid, hc, hp, hlen⟩
    · subst hvw
      subst hc
      have hp2 : p2 = [] := by
        injection hp with h1 h2
      subst hp2
      exact ⟨u, [u], 0, ms, m, WalkCost.single u, hadj2, hm, hid2, by ring, rfl, rfl⟩
    · refine ⟨v2, u :: q, cf u v m + c1, ns, n, ?_, hadj, hn, hid, ?_, ?_, ?_⟩
      · obtain ⟨t, ht⟩ := walkCost_head hwalk
        subst ht
        exact WalkCost.cons m ms hadj2 hm hid2 hwalk
      · rw [hc]
        ring
      · rw [hp]
        rfl
      · simp only [List.length_cons] at hlen ⊢
        omega

end WalkLemmas

section CostLemmas

theorem edgeCost_pos {nm : List (String × Node)} {op cp : ℚ}
    {u v : String} {n : Neighbor}
    (hd : 0 < n.distance) : 0 < edgeCost nm op cp u v n := by
  simp only [edgeCost]
  split_ifs <;> linarith

theorem edgeCost_ge_distance {nm : List (String × Node)} {op cp : ℚ}
    (u v : String) (n : Neighbor) :
    n.distance ≤ edgeCost nm op cp u v n := by
  simp only [edgeCost]
  split_ifs <;> linarith

theorem withTop_add_coe_eq_coe {a : WithTop ℚ} {b c : ℚ}
    (h : a + (b : WithTop ℚ) = (c : WithTop ℚ)) : a = ((c - b : ℚ) : WithTop ℚ) := by
  cases a with
  | top => rw [WithTop.top_add] at h; exact absurd h.symm (by simp)
  | coe x =>
    rw [← WithTop.coe_add, WithTop.coe_eq_coe] at h
    rw [WithTop.coe_eq_coe]
    linarith

theorem withTop_lt_add_pos {a : WithTop ℚ} {b : ℚ} (ha : a ≠ ⊤) (hb : 0 < b) :
    a < a + (b : WithTop ℚ) := by
  cases a with
  | top => exact absurd rfl ha
  | coe x =>
    rw [← WithTop.coe_add, WithTop.coe_lt_coe]
    linarith

end CostLemmas

section DijkstraInvariant

/-- The inductive invariant of the main Dijkstra loop over node-id list `V`:
`pq` is the unvisited queue and the settled nodes are the elements of `V` no
longer in it. -/
structure DInv (adj : List (String × List Neighbor))
    (cf : String → String → Neighbor → ℚ) (V : List String) (startId : String)
    (pq : List String) (st : DijkState) : Prop where
  pq_sub : ∀ x ∈ pq, x ∈ V
  pq_nodup : pq.Nodup
  key_iff : ∀ x, (lookupA st.dist x).isSome = true ↔ x ∈ V
  start_zero : dGet st.dist startId = 0
  nonneg : ∀ x, 0 ≤ dGet st.dist x
  sound : ∀ x (c : ℚ), dGet st.dist x = (c : WithTop ℚ) →
    ∃ p, WalkCost adj cf startId x p c
  settled_le : ∀ s, s ∈ V → s ∉ pq → ∀ y ∈ pq, dGet st.dist s ≤ dGet st.dist y
  settled_opt : ∀ s, s ∈ V → s ∉ pq → ∀ p c, WalkCost adj cf startId s p c →
    dGet st.dist s ≤ (c : WithTop ℚ)
  settled_relaxed : ∀ s, s ∈ V → s ∉ pq → ∀ ns, lookupA adj s = some ns →
    ∀ n ∈ ns, (lookupA st.dist n.id).isSome = true →
      dGet st.dist n.id ≤ dGet st.dist s + (cf s n.id n : WithTop ℚ)
  prev_link : ∀ v u, lookupA st.prev v = some (some u) →
    u ∈ V ∧ u ∉ pq ∧ dGet st.dist u ≠ ⊤ ∧
    ∃ ns n, lookupA adj u = some ns ∧ n ∈ ns ∧ n.id = v ∧
      dGet st.dist v = dGet st.dist u + (cf u v n : WithTop ℚ)
  reach_prev : ∀ v, v ∈ V → v ≠ startId → dGet st.dist v ≠ ⊤ →
    ∃ u, lookupA st.prev v = some (some u)
  prev_keys : ∀ v, v ∈ V → (lookupA st.prev v).isSome = true

/-- The queue-free part of the invariant, holding of the final state. -/
structure DPost (adj : List (String × List Neighbor))
    (cf : String → String → Neighbor → ℚ) (V : List String) (startId : String)
    (st : DijkState) : Prop where
  key_iff : ∀ x, (lookupA st.dist x).isSome = true ↔ x ∈ V
  start_zero : dGet st.dist startId = 0
  nonneg : ∀ x, 0 ≤ dGet st.dist x
  sound : ∀ x (c : ℚ), dGet st.dist x = (c : WithTop ℚ) →
    ∃ p, WalkCost adj cf startId x p c
  prev_link : ∀ v u, lookupA st.prev v = some (some u) →
    u ∈ V ∧ dGet st.dist u ≠ ⊤ ∧
    ∃ ns n, lookupA adj u = some ns ∧ n ∈ ns ∧ n.id = v ∧
      dGet st.dist v = dGet st.dist u + (cf u v n : WithTop ℚ)
  reach_prev : ∀ v, v ∈ V → v ≠ startId → dGet st.dist v ≠ ⊤ →
    ∃ u, lookupA st.prev v = some (some u)
  prev_keys : ∀ v, v ∈ V → (lookupA st.prev v).isSome = true

theorem DInv.toDPost {adj : List (String × List Neighbor)}
    {cf : String → String → Neighbor → ℚ} {V : List String} {startId : String}
    {pq : List String} {st : DijkState}
    (h : DInv adj cf V startId pq st) : DPost adj cf V startId st :=
  ⟨h.key_iff, h.start_zero, h.nonneg, h.sound,
   fun v u hl => ⟨(h.prev_link v u hl).1, (h.prev_link v u hl).2.2.1,
     (h.prev_link v u hl).2.2.2⟩,
   h.reach_prev, h.prev_keys⟩

theorem relaxOne_cases (nm : List (String × Node)) (op cp : ℚ) (u : String)
    (st : DijkState) (n : Neighbor) :
    (relaxOne nm op cp u st n = st ∧
      (lookupA st.dist n.id = none ∨ ∃ dn, lookupA st.dist n.id = some dn ∧
        ¬(dGet st.dist u + (edgeCost nm op cp u n.id n : WithTop ℚ) < dn))) ∨
    ∃ dn, lookupA st.dist n.id = some dn ∧
      dGet st.dist u + (edgeCost nm op cp u n.id n : WithTop ℚ) < dn ∧
      relaxOne nm op cp u st n =
        ⟨insertA st.dist n.id
          (dGet st.dist u + (edgeCost nm op cp u n.id n : WithTop ℚ)),
         insertA st.prev n.id (some u)⟩ := by
  cases h : lookupA st.dist n.id with
  | none =>
    left
    refine ⟨?_, Or.inl rfl⟩
    simp [relaxOne, h]
  | some dn =>
    simp only [relaxOne, h]
    split_ifs with h2
    · right
      exact ⟨dn, rfl, h2, rfl⟩
    · left
      exact ⟨rfl, Or.inr ⟨dn, rfl, h2⟩⟩

/-- What one pass of the neighbor relaxation loop guarantees: keys are
preserved, tentative distances only decrease, the popped node's distance is
untouched, every neighbor with a distance entry ends up relaxed, and each
changed entry records the popped node as predecessor together with the
defining distance equation. -/
structure RelaxSpec (nm : List (String × Node)) (op cp : ℚ) (u : String)
    (ns : List Neighbor) (st st2 : DijkState) : Prop where
  keys : ∀ x, (lookupA st2.dist x).isSome = (lookupA st.dist x).isSome
  mono : ∀ x, dGet st2.dist x ≤ dGet st.dist x
  stable_u : dGet st2.dist u = dGet st.dist u
  relaxed : ∀ n ∈ ns, (lookupA st.dist n.id).isSome = true →
    dGet st2.dist n.id ≤ dGet st.dist u + (edgeCost nm op cp u n.id n : WithTop ℚ)
  change : ∀ x,
    (dGet st2.dist x = dGet st.dist x ∧ lookupA st2.prev x = lookupA st.prev x) ∨
    (∃ n, n ∈ ns ∧ n.id = x ∧
      dGet st2.dist x = dGet st.dist u + (edgeCost nm op cp u x n : WithTop ℚ) ∧
      lookupA st2.prev x = some (some u) ∧ dGet st2.dist x < dGet st.dist x)

theorem dGet_insertA (dist : List (String × WithTop ℚ)) (k : String)
    (v : WithTop ℚ) (x : String) :
    dGet (insertA dist k v) x = if k = x then v else dGet dist x := by
  unfold dGet
  rw [lookupA_insertA]
  split <;> rfl

theorem relaxOne_spec (nm : List (String × Node)) (op cp : ℚ) (u : String)
    (n : Neighbor) (st : DijkState)
    (hc : 0 < edgeCost nm op cp u n.id n) :
    RelaxSpec nm op cp u [n] st (relaxOne nm op cp u st n) := by
  rcases relaxOne_cases nm op cp u st n with ⟨heq, hwhy⟩ | ⟨dn, hdn, hlt, heq⟩
  · rw [heq]
    refine ⟨fun x => rfl, fun x => le_refl _, rfl, ?_, fun x => Or.inl ⟨rfl, rfl⟩⟩
    intro m hm hsome
    rcases List.mem_singleton.mp hm with rfl
    rcases hwhy with hnone | ⟨dn, hdn, hnlt⟩
    · rw [hnone] at hsome
      exact absurd hsome (by simp)
    · have : dGet st.dist m.id = dn := by
        unfold dGet
        rw [hdn]
        rfl
      rw [this]
      exact not_lt.mp hnlt
  · have hdg : dGet st.dist n.id = dn := by
      unfold dGet
      rw [hdn]
      rfl
    have hkeys : ∀ x, (lookupA (relaxOne nm op cp u st n).dist x).isSome =
        (lookupA st.dist x).isSome := by
      intro x
      rw [heq]
      show (lookupA (insertA st.dist n.id _) x).isSome = _
      rw [lookupA_insertA]
      by_cases hx : n.id = x
      · rw [if_pos hx, ← hx, hdn]
        rfl
      · rw [if_neg hx]
    have hdist : ∀ x, dGet (relaxOne nm op cp u st n).dist x =
        if n.id = x then dGet st.dist u + (edgeCost nm op cp u n.id n : WithTop ℚ)
        else dGet st.dist x := by
      intro x
      rw [heq]
      show dGet (insertA st.dist n.id _) x = _
      rw [dGet_insertA]
    have hstable : dGet (relaxOne nm op cp u st n).dist u = dGet st.dist u := by
      rw [hdist]
      by_cases hx : n.id = u
      · exfalso
        rw [hx] at hdn hlt
        have hdu : dGet st.dist u = dn := by
          unfold dGet
          rw [hdn]
          rfl
        rw [hdu] at hlt
        have hle : dn ≤ dn + (edgeCost nm op cp u n.id n : WithTop ℚ) :=
          le_add_of_nonneg_right (by exact_mod_cast hc.le)
        rw [hx] at hle
        exact absurd hlt (not_lt.mpr hle)
      · rw [if_neg hx]
    refine ⟨hkeys, ?_, hstable, ?_, ?_⟩
    · intro x
      rw [hdist]
      by_cases hx : n.id = x
      · rw [if_pos hx, ← hx, hdg]
        exact hlt.le
      · rw [if_neg hx]
    · intro m hm _
      rcases List.mem_singleton.mp hm with rfl
      rw [hdist, if_pos rfl]
    · intro x
      by_cases hx : n.id = x
      · right
        refine ⟨n, List.mem_singleton_self n, hx, ?_, ?_, ?_⟩
        · rw [hdist, if_pos hx, hx]
        · rw [heq]
          show lookupA (insertA st.prev n.id (some u)) x = _
          rw [lookupA_insertA, if_pos hx]
        · rw [hdist, if_pos hx, ← hx, hdg]
          exact hlt
      · left
        constructor
        · rw [hdist, if_neg hx]
        · rw [heq]
          show lookupA (insertA st.prev n.id (some u)) x = _
          rw [lookupA_insertA, if_neg hx]

theorem relax_fold_spec (nm : List (String × Node)) (op cp : ℚ) (u : String) :
    ∀ (ns : List Neighbor) (st : DijkState),
      (∀ n ∈ ns, 0 < edgeCost nm op cp u n.id n) →
      RelaxSpec nm op cp u ns st (ns.foldl (relaxOne nm op cp u) st) := by
  intro ns
  induction ns with
  | nil =>
    intro st _
    exact ⟨fun x => rfl, fun x => le_refl _, rfl,
      fun n hn => absurd hn (List.not_mem_nil n), fun x => Or.inl ⟨rfl, rfl⟩⟩
  | cons n rest ih =>
    intro st hcpos
    rw [List.foldl_cons]
    have hstep := relaxOne_spec nm op cp u n st
      (hcpos n (List.mem_cons_self _ _))
    have hrest := ih (relaxOne nm op cp u st n)
      (fun m hm => hcpos m (List.mem_cons_of_mem _ hm))
    refine ⟨?_, ?_, ?_, ?_, ?_⟩
    · intro x
      rw [hrest.keys x, hstep.keys x]
    · intro x
      exact le_trans (hrest.mono x) (hstep.mono x)
    · rw [hrest.stable_u, hstep.stable_u]
    · intro m hm hsome
      rcases List.mem_cons.mp hm with rfl | hm2
      · refine le_trans (hrest.mono m.id) ?_
        exact hstep.relaxed m (List.mem_singleton_self m) hsome
      · have h2 := hrest.relaxed m hm2 (by rw [hstep.keys]; exact hsome)
        rw [hstep.stable_u] at h2
        exact h2
    · intro x
      rcases hrest.change x with ⟨hd2, hp2⟩ | ⟨m, hm, hid, hd2, hp2, hlt2⟩
      · rcases hstep.change x with ⟨hd1, hp1⟩ | ⟨m, hm, hid, hd1, hp1, hlt1⟩
        · exact Or.inl ⟨by rw [hd2, hd1], by rw [hp2, hp1]⟩
        · rcases List.mem_singleton.mp hm with rfl
          right
          exact ⟨m, List.mem_cons_self _ _, hid, by rw [hd2, hd1],
            by rw [hp2, hp1], by rw [hd2]; exact hlt1⟩
      · right
        refine ⟨m, List.mem_cons_of_mem _ hm, hid, ?_, hp2, ?_⟩
        · rw [hd2, hstep.stable_u]
        · exact lt_of_lt_of_le hlt2 (hstep.mono x)

end DijkstraInvariant

section CutLemma

/-- The cut argument at pop time: if `u` has minimal tentative distance over
the queue, then for every walk from the start to a node `t` with a distance
entry, either `u`'s distance or `t`'s distance is below the walk's cost. -/
theorem cut_lemma {adj : List (String × List Neighbor)}
    {cf : String → String → Neighbor → ℚ} {V : List String} {startId : String}
    {pq : List String} {st : DijkState}
    (hinv : DInv adj cf V startId pq st)
    (hcfpos : ∀ v ns n, lookupA adj v = some ns → n ∈ ns → 0 < cf v n.id n)
    (hadjkeys : ∀ x, (lookupA adj x).isSome = true ↔ x ∈ V)
    {u : String} (hmin : ∀ y ∈ pq, dGet st.dist u ≤ dGet st.dist y) :
    ∀ (k : Nat) (t : String) (p : List String) (c : ℚ), p.length ≤ k →
      WalkCost adj cf startId t p c → (lookupA st.dist t).isSome = true →
      dGet st.dist u ≤ (c : WithTop ℚ) ∨ dGet st.dist t ≤ (c : WithTop ℚ) := by
  intro k
  induction k with
  | zero =>
    intro t p c hlen hwalk _
    obtain ⟨q, hq⟩ := walkCost_head hwalk
    rw [hq] at hlen
    simp at hlen
  | succ k ih =>
    intro t p c hlen hwalk hkey
    rcases walkCost_snoc_cases hwalk with ⟨hst, hp, hc⟩ |
      ⟨v, q, c1, ns, n, hinit, hadj, hn, hid, hc, hp, hqlen⟩
    · right
      rw [← hst, hinv.start_zero, hc]
      exact_mod_cast le_refl (0 : WithTop ℚ)
    · subst hid
      have hvV : v ∈ V := (hadjkeys v).mp (by rw [hadj]; rfl)
      have hcfn : 0 ≤ cf v n.id n := (hcfpos v ns n hadj hn).le
      have hc1le : (c1 : WithTop ℚ) ≤ (c : WithTop ℚ) := by
        rw [hc]
        exact_mod_cast le_add_of_nonneg_right hcfn
      have hqk : q.length ≤ k := by
        rw [hp] at hlen
        simp only [List.length_append, List.length_singleton] at hlen
        omega
      by_cases hvpq : v ∈ pq
      · rcases ih v q c1 hqk hinit ((hinv.key_iff v).mpr hvV) with h2 | h2
        · exact Or.inl (le_trans h2 hc1le)
        · exact Or.inl (le_trans (le_trans (hmin v hvpq) h2) hc1le)
      · right
        have hopt := hinv.settled_opt v hvV hvpq q c1 hinit
        have hrel := hinv.settled_relaxed v hvV hvpq ns hadj n hn hkey
        calc dGet st.dist n.id
            ≤ dGet st.dist v + (cf v n.id n : WithTop ℚ) := hrel
          _ ≤ (c1 : WithTop ℚ) + (cf v n.id n : WithTop ℚ) := add_le_add_right hopt _
          _ = ((c1 + cf v n.id n : ℚ) : WithTop ℚ) := by rw [WithTop.coe_add]
          _ = (c : WithTop ℚ) := by rw [hc]

end CutLemma

section MaintenanceStep

theorem dinv_step {nm : List (String × Node)} {op cp : ℚ}
    {adj : List (String × List Neighbor)} {V : List String} {startId : String}
    {pq : List String} {st : DijkState}
    (hinv : DInv adj (edgeCost nm op cp) V startId pq st)
    (hadjkeys : ∀ x, (lookupA adj x).isSome = true ↔ x ∈ V)
    (hadjpos : ∀ v ns n, lookupA adj v = some ns → n ∈ ns →
      0 < edgeCost nm op cp v n.id n)
    {u : String} {rest : List String}
    (hm : List.insertionSort (distRel st.dist) pq = u :: rest)
    (hured : ¬ lookupA st.dist u = some ⊤)
    {ns : List Neighbor} (hadj : lookupA adj u = some ns) :
    DInv adj (edgeCost nm op cp) V startId rest
      (ns.foldl (relaxOne nm op cp u) st) := by
  have hperm : List.Perm (u :: rest) pq := by
    rw [← hm]
    exact List.perm_insertionSort (distRel st.dist) pq
  have hnodup_ur : (u :: rest).Nodup := hperm.nodup_iff.mpr hinv.pq_nodup
  have hu_pq : u ∈ pq := hperm.mem_iff.mp (List.mem_cons_self u rest)
  have hu_not_rest : u ∉ rest := (List.nodup_cons.mp hnodup_ur).1
  have hrest_pq : ∀ x ∈ rest, x ∈ pq :=
    fun x hx => hperm.mem_iff.mp (List.mem_cons_of_mem u hx)
  have hpq_cases : ∀ x ∈ pq, x = u ∨ x ∈ rest :=
    fun x hx => List.mem_cons.mp (hperm.mem_iff.mpr hx)
  have hmin : ∀ y ∈ pq, dGet st.dist u ≤ dGet st.dist y := by
    intro y hy
    rcases hpq_cases y hy with rfl | hy2
    · exact le_refl _
    · have hsorted := List.sorted_insertionSort (distRel st.dist) pq
      rw [hm] at hsorted
      exact (List.sorted_cons.mp hsorted).1 y hy2
  have huV : u ∈ V := hinv.pq_sub u hu_pq
  have hufin : dGet st.dist u ≠ ⊤ := by
    obtain ⟨d, hd⟩ := Option.isSome_iff_exists.mp ((hinv.key_iff u).mpr huV)
    unfold dGet
    rw [hd]
    intro hcontra
    apply hured
    rw [hd]
    simpa using hcontra
  have hcpos : ∀ n ∈ ns, 0 < edgeCost nm op cp u n.id n :=
    fun n hn => hadjpos u ns n hadj hn
  have hspec := relax_fold_spec nm op cp u ns st hcpos
  set st2 := ns.foldl (relaxOne nm op cp u) st with hst2
  have hunch : ∀ s, s ∈ V → s ∉ pq → dGet st2.dist s = dGet st.dist s := by
    intro s hsV hsnp
    rcases hspec.change s with ⟨hd, -⟩ | ⟨n, hn, hid, hd, -, hlt⟩
    · exact hd
    · exfalso
      have h1 : dGet st.dist s ≤ dGet st.dist u := hinv.settled_le s hsV hsnp u hu_pq
      have h2 : dGet st.dist u ≤ dGet st.dist u +
          (edgeCost nm op cp u s n : WithTop ℚ) :=
        le_add_of_nonneg_right (by exact_mod_cast (hid ▸ hcpos n hn).le)
      rw [← hd] at h2
      exact absurd hlt (not_lt.mpr (le_trans h1 h2))
  have hsettled_rest : ∀ s, s ∈ V → s ∉ rest → (s ∉ pq ∨ s = u) := by
    intro s _ hsr
    by_cases hsp : s ∈ pq
    · rcases hpq_cases s hsp with rfl | h2
      · exact Or.inr rfl
      · exact absurd h2 hsr
    · exact Or.inl hsp
  refine ⟨?_, ?_, ?_, ?_, ?_, ?_, ?_, ?_, ?_, ?_, ?_, ?_⟩
  · exact fun x hx => hinv.pq_sub x (hrest_pq x hx)
  · exact (List.nodup_cons.mp hnodup_ur).2
  · intro x
    rw [hspec.keys x]
    exact hinv.key_iff x
  · rcases hspec.change startId with ⟨hd, -⟩ | ⟨n, hn, hid, hd, -, hlt⟩
    · rw [hd]
      exact hinv.start_zero
    · exfalso
      rw [hinv.start_zero] at hlt
      have h2 : (0 : WithTop ℚ) <
          dGet st.dist u + (edgeCost nm op cp u startId n : WithTop ℚ) := by
        refine lt_of_lt_of_le ?_ (le_add_of_nonneg_left (hinv.nonneg u))
        exact_mod_cast hid ▸ hcpos n hn
      rw [← hd] at h2
      exact absurd hlt (not_lt.mpr h2.le)
  · intro x
    rcases hspec.change x with ⟨hd, -⟩ | ⟨n, hn, hid, hd, -, -⟩
    · rw [hd]
      exact hinv.nonneg x
    · rw [hd]
      exact add_nonneg (hinv.nonneg u) (by exact_mod_cast (hid ▸ hcpos n hn).le)
  · intro x c hc
    rcases hspec.change x with ⟨hd, -⟩ | ⟨n, hn, hid, hd, -, -⟩
    · exact hinv.sound x c (by rw [← hd]; exact hc)
    · rw [hd] at hc
      have hu2 := withTop_add_coe_eq_coe hc
      obtain ⟨q, hq⟩ := hinv.sound u (c - edgeCost nm op cp u x n) hu2
      refine ⟨q ++ [x], ?_⟩
      have hsn := walkCost_snoc hq hadj hn hid
      rw [show c - edgeCost nm op cp u x n + edgeCost nm op cp u x n = c
        by ring] at hsn
      exact hsn
  · intro s hsV hsr y hy
    rcases hsettled_rest s hsV hsr with hsnp | rfl
    · rw [hunch s hsV hsnp]
      rcases hspec.change y with ⟨hd, -⟩ | ⟨n, hn, hid, hd, -, -⟩
      · rw [hd]
        exact hinv.settled_le s hsV hsnp y (hrest_pq y hy)
      · rw [hd]
        refine le_trans (hinv.settled_le s hsV hsnp u hu_pq) ?_
        exact le_add_of_nonneg_right (by exact_mod_cast (hid ▸ hcpos n hn).le)
    · rw [hspec.stable_u]
      rcases hspec.change y with ⟨hd, -⟩ | ⟨n, hn, hid, hd, -, -⟩
      · rw [hd]
        exact hmin y (hrest_pq y hy)
      · rw [hd]
        exact le_add_of_nonneg_right (by exact_mod_cast (hid ▸ hcpos n hn).le)
  · intro s hsV hsr p c hwalk
    rcases hsettled_rest s hsV hsr with hsnp | rfl
    · rw [hunch s hsV hsnp]
      exact hinv.settled_opt s hsV hsnp p c hwalk
    · rw [hspec.stable_u]
      have hcut := cut_lemma hinv hadjpos hadjkeys hmin p.length s p c
        (le_refl _) hwalk ((hinv.key_iff s).mpr hsV)
      rcases hcut with h2 | h2 <;> exact h2
  · intro s hsV hsr ms hms m hm2 hkey2
    have hkey : (lookupA st.dist m.id).isSome = true := by
      rw [← hspec.keys m.id]
      exact hkey2
    rcases hsettled_rest s hsV hsr with hsnp | rfl
    · rw [hunch s hsV hsnp]
      refine le_trans (hspec.mono m.id) ?_
      exact hinv.settled_relaxed s hsV hsnp ms hms m hm2 hkey
    · rw [hspec.stable_u]
      rw [hadj] at hms
      injection hms with hms2
      subst hms2
      exact hspec.relaxed m hm2 hkey
  · intro v u2 hl
    rcases hspec.change v with ⟨hd, hp⟩ | ⟨n, hn, hid, hd, hp, -⟩
    · rw [hp] at hl
      obtain ⟨h1, h2, h3, ns2, n2, h4, h5, h6, h7⟩ := hinv.prev_link v u2 hl
      refine ⟨h1, fun hcon => h2 (hrest_pq u2 hcon), ?_, ns2, n2, h4, h5, h6, ?_⟩
      · rw [hunch u2 h1 h2]
        exact h3
      · rw [hd, hunch u2 h1 h2]
        exact h7
    · rw [hp] at hl
      injection hl with hl2
      injection hl2 with hl3
      subst hl3
      refine ⟨huV, hu_not_rest, ?_, ns, n, hadj, hn, hid, ?_⟩
      · rw [hspec.stable_u]
        exact hufin
      · rw [hd, hspec.stable_u]
  · intro v hvV hvs hfin
    rcases hspec.change v with ⟨hd, hp⟩ | ⟨n, hn, hid, hd, hp, -⟩
    · rw [hd] at hfin
      obtain ⟨u2, hu2⟩ := hinv.reach_prev v hvV hvs hfin
      exact ⟨u2, by rw [hp]; exact hu2⟩
    · exact ⟨u, hp⟩
  · intro v hvV
    rcases hspec.change v with ⟨-, hp⟩ | ⟨n, hn, hid, -, hp, -⟩
    · rw [hp]
      exact hinv.prev_keys v hvV
    · rw [hp]
      rfl

end MaintenanceStep

section MainLoopTheorem

/-- The master theorem about the Dijkstra loop: from any invariant state it
reaches a final state satisfying the queue-free invariant, and — when no
node id is the empty string — the end node's final tentative distance is a
lower bound of every walk cost from the start to the end. -/
theorem dijkLoopF_main (nm : List (String × Node))
    (adj : List (String × List Neighbor)) (op cp : ℚ) (endId : String)
    (V : List String) (startId : String)
    (hadjkeys : ∀ x, (lookupA adj x).isSome = true ↔ x ∈ V)
    (hadjpos : ∀ v ns n, lookupA adj v = some ns → n ∈ ns →
      0 < edgeCost nm op cp v n.id n)
    (hend : endId ∈ V) :
    ∀ (fuel : Nat) (pq : List String) (st : DijkState), pq.length ≤ fuel →
      DInv adj (edgeCost nm op cp) V startId pq st →
      DPost adj (edgeCost nm op cp) V startId
        (dijkLoopF nm adj op cp endId fuel pq st) ∧
      ("" ∉ V → ∀ (p : List String) (c : ℚ),
        WalkCost adj (edgeCost nm op cp) startId endId p c →
        dGet (dijkLoopF nm adj op cp endId fuel pq st).dist endId ≤
          (c : WithTop ℚ)) := by
  intro fuel
  induction fuel with
  | zero =>
    intro pq st hlen hinv
    have hpq : pq = [] := List.length_eq_zero.mp (Nat.le_zero.mp hlen)
    subst hpq
    refine ⟨hinv.toDPost, ?_⟩
    intro _ p c hwalk
    exact hinv.settled_opt endId hend (List.not_mem_nil endId) p c hwalk
  | succ f ih =>
    intro pq st hlen hinv
    cases hm : List.insertionSort (distRel st.dist) pq with
    | nil =>
      rw [dijkLoopF_succ_nil hm]
      have hpq : pq = [] := by
        have h2 := List.perm_insertionSort (distRel st.dist) pq
        rw [hm] at h2
        exact (List.Perm.symm h2).eq_nil
      refine ⟨hinv.toDPost, ?_⟩
      intro _ p c hwalk
      exact hinv.settled_opt endId hend (by rw [hpq]; exact List.not_mem_nil endId)
        p c hwalk
    | cons u rest =>
      rw [dijkLoopF_succ_cons hm]
      have hperm : List.Perm (u :: rest) pq := by
        rw [← hm]
        exact List.perm_insertionSort (distRel st.dist) pq
      have hu_pq : u ∈ pq := hperm.mem_iff.mp (List.mem_cons_self u rest)
      have huV : u ∈ V := hinv.pq_sub u hu_pq
      have hmin : ∀ y ∈ pq, dGet st.dist u ≤ dGet st.dist y := by
        intro y hy
        rcases List.mem_cons.mp (hperm.mem_iff.mpr hy) with rfl | hy2
        · exact le_refl _
        · have hsorted := List.sorted_insertionSort (distRel st.dist) pq
          rw [hm] at hsorted
          exact (List.sorted_cons.mp hsorted).1 y hy2
      by_cases h1 : u = ""
      · rw [if_pos h1]
        refine ⟨hinv.toDPost, ?_⟩
        intro hnoE
        rw [h1] at huV
        exact absurd huV hnoE
      · rw [if_neg h1]
        by_cases h2 : u = endId
        · rw [if_pos h2]
          refine ⟨hinv.toDPost, ?_⟩
          intro _ p c hwalk
          have hcut := cut_lemma hinv hadjpos hadjkeys hmin p.length endId p c
            (le_refl _) hwalk ((hinv.key_iff endId).mpr hend)
          rcases hcut with h3 | h3
          · rw [← h2]
            exact h3
          · exact h3
        · rw [if_neg h2]
          by_cases h3 : lookupA st.dist u = some ⊤
          · rw [if_pos h3]
            refine ⟨hinv.toDPost, ?_⟩
            intro _ p c hwalk
            have hcut := cut_lemma hinv hadjpos hadjkeys hmin p.length endId p c
              (le_refl _) hwalk ((hinv.key_iff endId).mpr hend)
            rcases hcut with h4 | h4
            · exfalso
              have hdu : dGet st.dist u = ⊤ := by
                unfold dGet
                rw [h3]
                rfl
              rw [hdu, top_le_iff] at h4
              exact absurd h4 (by simp)
            · exact h4
          · rw [if_neg h3]
            have hlen2 : rest.length ≤ f := by
              have h4 := List.length_insertionSort (distRel st.dist) pq
              rw [hm] at h4
              simp only [List.length_cons] at h4
              omega
            cases hadj : lookupA adj u with
            | none =>
              exfalso
              have h5 := (hadjkeys u).mpr huV
              rw [hadj] at h5
              exact absurd h5 (by simp)
            | some ns =>
              exact ih rest _ hlen2 (dinv_step hinv hadjkeys hadjpos hm h3 hadj)

end MainLoopTheorem

section InitialInvariant

theorem dinv_init {adj : List (String × List Neighbor)}
    {cf : String → String → Neighbor → ℚ} (data : GraphData) (startId : String)
    (hstart : startId ∈ data.nodes.map Node.id)
    (hnodup : (data.nodes.map Node.id).Nodup) :
    DInv adj cf (data.nodes.map Node.id) startId (data.nodes.map Node.id)
      ⟨insertA (dist0Of data) startId 0, prev0Of data⟩ := by
  have hdist : ∀ x, lookupA (insertA (dist0Of data) startId 0) x =
      if startId = x then some 0
      else if x ∈ data.nodes.map Node.id then some ⊤ else none := by
    intro x
    rw [lookupA_insertA]
    split
    · rfl
    · rw [lookupA_dist0Of]
  have hdget : ∀ x, dGet (insertA (dist0Of data) startId 0) x =
      if startId = x then 0 else ⊤ := by
    intro x
    unfold dGet
    rw [hdist]
    split
    · rfl
    · split <;> rfl
  refine ⟨fun x hx => hx, hnodup, ?_, ?_, ?_, ?_, ?_, ?_, ?_, ?_, ?_, ?_⟩
  · intro x
    rw [hdist]
    split
    · rename_i h
      simp only [Option.isSome_some, true_iff]
      rw [← h]
      exact hstart
    · split
      · rename_i h2
        simpa using h2
      · rename_i h2
        simpa using h2
  · rw [hdget, if_pos rfl]
  · intro x
    rw [hdget]
    split
    · exact le_refl 0
    · exact le_top
  · intro x c hc
    rw [hdget] at hc
    split at hc
    · rename_i h
      subst h
      have hc0 : c = 0 := by exact_mod_cast hc.symm
      subst hc0
      exact ⟨[startId], WalkCost.single startId⟩
    · exact absurd hc.symm (by simp)
  · intro s hsV hsnp
    exact absurd hsV hsnp
  · intro s hsV hsnp
    exact absurd hsV hsnp
  · intro s hsV hsnp
    exact absurd hsV hsnp
  · intro v u hl
    rw [lookupA_prev0Of] at hl
    split at hl
    · exact absurd hl (by simp)
    · exact absurd hl (by simp)
  · intro v hvV hvs hfin
    rw [hdget] at hfin
    split at hfin
    · rename_i h
      exact absurd h.symm hvs
    · exact absurd rfl hfin
  · intro v hvV
    rw [lookupA_prev0Of, if_pos hvV]
    rfl

end InitialInvariant

section ReconWalk

/-- Following the `previous` chain from any node with a finite tentative
distance terminates (each link strictly decreases the distance) and spells
out a walk from the start whose cost is exactly that distance. -/
theorem recon_builds_walk {nm : List (String × Node)} {op cp : ℚ}
    {adj : List (String × List Neighbor)} {V : List String} {startId : String}
    {stF : DijkState}
    (hpost : DPost adj (edgeCost nm op cp) V startId stF)
    (hadjpos : ∀ v ns n, lookupA adj v = some ns → n ∈ ns →
      0 < edgeCost nm op cp v n.id n) :
    ∀ (meas : Nat) (v : String) (cv : ℚ), v ∈ V →
      dGet stF.dist v = (cv : WithTop ℚ) →
      (V.filter (fun x => decide (dGet stF.dist x < dGet stF.dist v))).length ≤ meas →
      ∀ (fuel : Nat), meas + 2 ≤ fuel → ∀ acc,
        ∃ p, reconstructFuel stF.prev fuel (JSVal.str v) acc =
          some (p.map JSVal.str ++ acc) ∧
          WalkCost adj (edgeCost nm op cp) startId v p cv := by
  have hstep : ∀ (v : String) (u : String), v ∈ V →
      lookupA stF.prev v = some (some u) →
      u ∈ V ∧ dGet stF.dist u < dGet stF.dist v ∧
      ∃ ns n, lookupA adj u = some ns ∧ n ∈ ns ∧ n.id = v ∧
        dGet stF.dist v = dGet stF.dist u + (edgeCost nm op cp u v n : WithTop ℚ) := by
    intro v u hv hl
    obtain ⟨huV, hufin, ns, n, hadj, hn, hid, heq⟩ := hpost.prev_link v u hl
    refine ⟨huV, ?_, ns, n, hadj, hn, hid, heq⟩
    rw [heq]
    exact withTop_lt_add_pos hufin (hid ▸ hadjpos u ns n hadj hn)
  have hbase : ∀ (v : String) (cv : ℚ), v ∈ V →
      dGet stF.dist v = (cv : WithTop ℚ) →
      lookupA stF.prev v = some none →
      ∀ (fuel : Nat), 1 ≤ fuel → ∀ acc,
        ∃ p, reconstructFuel stF.prev fuel (JSVal.str v) acc =
          some (p.map JSVal.str ++ acc) ∧
          WalkCost adj (edgeCost nm op cp) startId v p cv := by
    intro v cv hv hfin hnone fuel hfuel acc
    have hvs : v = startId := by
      by_contra hne
      obtain ⟨u2, hu2⟩ := hpost.reach_prev v hv hne (by rw [hfin]; simp)
      rw [hnone] at hu2
      exact absurd hu2 (by simp)
    have hc0 : cv = 0 := by
      have h2 := hpost.start_zero
      rw [← hvs, hfin] at h2
      exact_mod_cast h2
    subst hc0
    refine ⟨[v], ?_, ?_⟩
    · rw [reconstructFuel_one_step hnone fuel hfuel acc]
      rfl
    · rw [hvs]
      exact WalkCost.single startId
  intro meas
  induction meas with
  | zero =>
    intro v cv hv hfin hmeas fuel hfuel acc
    obtain ⟨w, hw⟩ := Option.isSome_iff_exists.mp (hpost.prev_keys v hv)
    cases w with
    | none => exact hbase v cv hv hfin hw fuel (by omega) acc
    | some u =>
      exfalso
      obtain ⟨huV, hult, -⟩ := hstep v u hv hw
      have hmem : u ∈ V.filter
          (fun x => decide (dGet stF.dist x < dGet stF.dist v)) :=
        List.mem_filter.mpr ⟨huV, by simpa using hult⟩
      have h2 := List.length_pos.mpr (List.ne_nil_of_mem hmem)
      omega
  | succ k ih =>
    intro v cv hv hfin hmeas fuel hfuel acc
    obtain ⟨w, hw⟩ := Option.isSome_iff_exists.mp (hpost.prev_keys v hv)
    cases w with
    | none => exact hbase v cv hv hfin hw fuel (by omega) acc
    | some u =>
      obtain ⟨huV, hult, ns, n, hadj, hn, hid, heq⟩ := hstep v u hv hw
      have hufin : dGet stF.dist u ≠ ⊤ := by
        intro htop
        rw [htop] at hult
        exact absurd hult (by simp)
      obtain ⟨cu, hcu⟩ := WithTop.ne_top_iff_exists.mp hufin
      have hcuv : cu + edgeCost nm op cp u v n = cv := by
        rw [hfin, ← hcu] at heq
        rw [← WithTop.coe_add] at heq
        exact_mod_cast heq.symm
      have hsub : (V.filter
            (fun x => decide (dGet stF.dist x < dGet stF.dist u))).length ≤ k := by
        have hsubl : List.Sublist
            (V.filter (fun x => decide (dGet stF.dist x < dGet stF.dist u)))
            (V.filter (fun x => decide (dGet stF.dist x < dGet stF.dist v))) := by
          apply List.monotone_filter_right
          intro a ha
          simp only [decide_eq_true_eq] at ha ⊢
          exact lt_trans ha hult
        have hmemv : u ∈ V.filter
            (fun x => decide (dGet stF.dist x < dGet stF.dist v)) :=
          List.mem_filter.mpr ⟨huV, by simpa using hult⟩
        have hmemu : u ∉ V.filter
            (fun x => decide (dGet stF.dist x < dGet stF.dist u)) := by
          intro hcon
          have := (List.mem_filter.mp hcon).2
          simp at this
        have hlt : (V.filter
              (fun x => decide (dGet stF.dist x < dGet stF.dist u))).length <
            (V.filter
              (fun x => decide (dGet stF.dist x < dGet stF.dist v))).length := by
          rcases lt_or_eq_of_le hsubl.length_le with h2 | h2
          · exact h2
          · exfalso
            exact hmemu (hsubl.eq_of_length h2 ▸ hmemv)
        omega
      cases fuel with
      | zero => omega
      | succ f =>
        have hws : walkStep stF.prev (JSVal.str v) = JSVal.str u := by
          simp [walkStep, keyOfJS, hw]
        obtain ⟨q, hrecq, hwalkq⟩ := ih u cu huV hcu.symm hsub f (by omega)
          (JSVal.str v :: acc)
        refine ⟨q ++ [v], ?_, ?_⟩
        · simp only [reconstructFuel]
          rw [if_neg (by simp), hws, hrecq]
          simp
        · have hsn := walkCost_snoc hwalkq hadj hn hid
          rw [hcuv] at hsn
          exact hsn

end ReconWalk

section RunAssembly

theorem adjOf_cost_pos (data : GraphData) (disallow : Bool) (op cp : ℚ)
    (hposd : ∀ e ∈ data.edges, 0 < e.distance) :
    ∀ v ns n, lookupA (adjOf data disallow) v = some ns → n ∈ ns →
      0 < edgeCost (nodeMapOf data) op cp v n.id n := by
  intro v ns n h hn
  obtain ⟨e, he, -, -, hdist, -⟩ := adjOf_mem_edges h hn
  exact edgeCost_pos (by rw [hdist]; exact hposd e he)

/-- The Dijkstra run of `findShortestPath` satisfies the final invariant, and
its end-distance lower-bounds every walk cost when no node id is the empty
string. -/
theorem core_run (data : GraphData) (startId endId : String) (disallow : Bool)
    (op cp : ℚ) (hstart : startId ∈ data.nodes.map Node.id)
    (hend : endId ∈ data.nodes.map Node.id)
    (hnodup : (data.nodes.map Node.id).Nodup)
    (hposd : ∀ e ∈ data.edges, 0 < e.distance) :
    DPost (adjOf data disallow) (edgeCost (nodeMapOf data) op cp)
      (data.nodes.map Node.id) startId
      (dijkFinal data startId endId disallow op cp) ∧
    ("" ∉ data.nodes.map Node.id → ∀ (p : List String) (c : ℚ),
      WalkCost (adjOf data disallow) (edgeCost (nodeMapOf data) op cp)
        startId endId p c →
      dGet (dijkFinal data startId endId disallow op cp).dist endId ≤
        (c : WithTop ℚ)) :=
  dijkLoopF_main (nodeMapOf data) (adjOf data disallow) op cp endId
    (data.nodes.map Node.id) startId (fun x => adjOf_isSome data disallow x)
    (adjOf_cost_pos data disallow op cp hposd) hend
    (data.nodes.map Node.id).length (data.nodes.map Node.id)
    ⟨insertA (dist0Of data) startId 0, prev0Of data⟩ (le_refl _)
    (dinv_init data startId hstart hnodup)

end RunAssembly

section ClaimC10

/-- C10: for every graph whose node list contains both endpoints and that
satisfies the data model (unique node ids, positive edge distances),
`findShortestPath` terminates: the main loop removes one queue entry per
iteration, every `previous` pointer was set under a strict distance decrease
over positive edge costs, so the predecessor chain is acyclic and the
reconstruction walk reaches the start or a null predecessor within the
default fuel — the model returns a value (never fuel exhaustion). -/
theorem C10_findShortestPath_terminates (data : GraphData)
    (startId endId : String) (prefs : RoutePreferences)
    (hstart : startId ∈ data.nodes.map Node.id)
    (hend : endId ∈ data.nodes.map Node.id)
    (hnodup : (data.nodes.map Node.id).Nodup)
    (hposd : ∀ e ∈ data.edges, 0 < e.distance) :
    ∃ r, findShortestPath data startId endId prefs = some r := by
  obtain ⟨hpost, -⟩ := core_run data startId endId
    (prefs.disallowStairs.getD false) (max 0 (prefs.outdoorPenalty.getD 0))
    (max 0 (prefs.campusBoundaryPenalty.getD 0)) hstart hend hnodup hposd
  show ∃ r, findShortestPathCore (data.nodes.length + 5) data startId endId
    (prefs.disallowStairs.getD false) (max 0 (prefs.outdoorPenalty.getD 0))
    (max 0 (prefs.campusBoundaryPenalty.getD 0)) = some r
  unfold findShortestPathCore
  by_cases hcond : lookupA (dijkFinal data startId endId
      (prefs.disallowStairs.getD false) (max 0 (prefs.outdoorPenalty.getD 0))
      (max 0 (prefs.campusBoundaryPenalty.getD 0))).prev endId ≠ some none ∨
      endId = startId
  · rw [if_pos hcond]
    obtain ⟨w, hw⟩ := Option.isSome_iff_exists.mp (hpost.prev_keys endId hend)
    cases w with
    | none =>
      rw [reconstructFuel_one_step hw _ (by omega) []]
      exact ⟨_, rfl⟩
    | some u =>
      obtain ⟨huV, hufin, ns, n, hadj, hn, hid, heq⟩ := hpost.prev_link endId u hw
      obtain ⟨cu, hcu⟩ := WithTop.ne_top_iff_exists.mp hufin
      have hfin : dGet (dijkFinal data startId endId
          (prefs.disallowStairs.getD false) (max 0 (prefs.outdoorPenalty.getD 0))
          (max 0 (prefs.campusBoundaryPenalty.getD 0))).dist endId =
          ((cu + edgeCost (nodeMapOf data) (max 0 (prefs.outdoorPenalty.getD 0))
            (max 0 (prefs.campusBoundaryPenalty.getD 0)) u endId n : ℚ) :
            WithTop ℚ) := by
        rw [heq, ← hcu, ← WithTop.coe_add]
      obtain ⟨p, hrec, -⟩ := recon_builds_walk hpost
        (adjOf_cost_pos data (prefs.disallowStairs.getD false)
          (max 0 (prefs.outdoorPenalty.getD 0))
          (max 0 (prefs.campusBoundaryPenalty.getD 0)) hposd)
        (data.nodes.map Node.id).length endId _ hend hfin
        (List.length_filter_le _ _) (data.nodes.length + 5)
        (by rw [List.length_map]; omega) []
      rw [hrec]
      exact ⟨_, rfl⟩
  · rw [if_neg hcond]
    exact ⟨none, rfl⟩

end ClaimC10

section ClaimC1

/-- C1 (amended): on a graph satisfying the data model (unique node ids,
positive edge distances) that contains both endpoints, none of whose node
ids is the empty string, if an admissible walk from start to end exists then
`findShortestPath` returns a path realizing a walk whose cost is minimal
among all admissible walks between the endpoints under the compiled cost
function. -/
theorem C1_returns_minimal_cost_path_amended (data : GraphData)
    (startId endId : String) (prefs : RoutePreferences)
    (hstart : startId ∈ data.nodes.map Node.id)
    (hend : endId ∈ data.nodes.map Node.id)
    (hnodup : (data.nodes.map Node.id).Nodup)
    (hposd : ∀ e ∈ data.edges, 0 < e.distance)
    (hnoE : "" ∉ data.nodes.map Node.id)
    (hreach : ∃ p0 c0, WalkCost (adjOf data (prefs.disallowStairs.getD false))
      (cfOf data (max 0 (prefs.outdoorPenalty.getD 0))
        (max 0 (prefs.campusBoundaryPenalty.getD 0))) startId endId p0 c0) :
    ∃ p c, findShortestPath data startId endId prefs =
        some (some (p.map JSVal.str)) ∧
      WalkCost (adjOf data (prefs.disallowStairs.getD false))
        (cfOf data (max 0 (prefs.outdoorPenalty.getD 0))
          (max 0 (prefs.campusBoundaryPenalty.getD 0))) startId endId p c ∧
      (∀ q c2, WalkCost (adjOf data (prefs.disallowStairs.getD false))
        (cfOf data (max 0 (prefs.outdoorPenalty.getD 0))
          (max 0 (prefs.campusBoundaryPenalty.getD 0))) startId endId q c2 →
        c ≤ c2) := by
  unfold cfOf at hreach ⊢
  obtain ⟨hpost, hopt⟩ := core_run data startId endId
    (prefs.disallowStairs.getD false) (max 0 (prefs.outdoorPenalty.getD 0))
    (max 0 (prefs.campusBoundaryPenalty.getD 0)) hstart hend hnodup hposd
  obtain ⟨p0, c0, hw0⟩ := hreach
  have hub := hopt hnoE p0 c0 hw0
  have hfin_ne : dGet (dijkFinal data startId endId
      (prefs.disallowStairs.getD false) (max 0 (prefs.outdoorPenalty.getD 0))
      (max 0 (prefs.campusBoundaryPenalty.getD 0))).dist endId ≠ ⊤ := by
    intro htop
    rw [htop, top_le_iff] at hub
    exact absurd hub (by simp)
  obtain ⟨cE, hcE⟩ := WithTop.ne_top_iff_exists.mp hfin_ne
  obtain ⟨p, hrec, hwalk⟩ := recon_builds_walk hpost
    (adjOf_cost_pos data (prefs.disallowStairs.getD false)
      (max 0 (prefs.outdoorPenalty.getD 0))
      (max 0 (prefs.campusBoundaryPenalty.getD 0)) hposd)
    (data.nodes.map Node.id).length endId cE hend hcE.symm
    (List.length_filter_le _ _) (data.nodes.length + 5)
    (by rw [List.length_map]; omega) []
  refine ⟨p, cE, ?_, hwalk, ?_⟩
  · show findShortestPathCore (data.nodes.length + 5) data startId endId
      (prefs.disallowStairs.getD false) (max 0 (prefs.outdoorPenalty.getD 0))
      (max 0 (prefs.campusBoundaryPenalty.getD 0)) = some (some (p.map JSVal.str))
    unfold findShortestPathCore
    have hcond : lookupA (dijkFinal data startId endId
        (prefs.disallowStairs.getD false) (max 0 (prefs.outdoorPenalty.getD 0))
        (max 0 (prefs.campusBoundaryPenalty.getD 0))).prev endId ≠ some none ∨
        endId = startId := by
      by_cases hse : endId = startId
      · exact Or.inr hse
      · left
        obtain ⟨u2, hu2⟩ := hpost.reach_prev endId hend hse hfin_ne
        rw [hu2]
        simp
    rw [if_pos hcond, hrec]
    have hpne : p ≠ [] := by
      obtain ⟨t, ht⟩ := walkCost_head hwalk
      rw [ht]
      simp
    show some (if 0 < (p.map JSVal.str ++ []).length
        then some (p.map JSVal.str ++ []) else none) =
      some (some (p.map JSVal.str))
    rw [List.append_nil, if_pos (by simpa using List.length_pos.mpr hpne)]
  · intro q c2 hw2
    have h2 := hopt hnoE q c2 hw2
    rw [← hcE] at h2
    exact_mod_cast h2

end ClaimC1

section ClaimC1Concrete

set_option allowUnsafeReducibility true
attribute [local semireducible] Rat.add

/-- C1: counterexample.  On a graph with a node whose id is the empty string
(falsy in JS, so shifting it aborts the Dijkstra loop), the call returns the
direct path `[x, e]`, whose only cost is 10, although the admissible walk
`x → "" → e` costs 2 — the returned path is not of minimal cost. -/
theorem C1_empty_id_counterexample :
    findShortestPath gEmptyId "x" "e" {} =
      some (some [JSVal.str "x", JSVal.str "e"]) ∧
    WalkCost (adjOf gEmptyId false) (cfOf gEmptyId 0 0) "x" "e" ["x", "", "e"] 2 ∧
    (∀ c, WalkCost (adjOf gEmptyId false) (cfOf gEmptyId 0 0) "x" "e" ["x", "e"] c →
      c = 10) ∧
    (2 : ℚ) < 10 := by
  have hax : lookupA (adjOf gEmptyId false) "x" =
      some [⟨"", 1, true⟩, ⟨"e", 10, true⟩] := by decide
  have hae : lookupA (adjOf gEmptyId false) "" =
      some [⟨"x", 1, true⟩, ⟨"e", 1, true⟩] := by decide
  refine ⟨by decide, ?_, ?_, by decide⟩
  · have hc : cfOf gEmptyId 0 0 "x" "" ⟨"", 1, true⟩ +
        (cfOf gEmptyId 0 0 "" "e" ⟨"e", 1, true⟩ + 0) = 2 := by decide
    exact hc ▸ WalkCost.cons ⟨"", 1, true⟩ _ hax (by decide) rfl
      (WalkCost.cons ⟨"e", 1, true⟩ _ hae (by decide) rfl (WalkCost.single "e"))
  · have inv : ∀ (u w : String) (L : List String) (c : ℚ),
        WalkCost (adjOf gEmptyId false) (cfOf gEmptyId 0 0) u w L c →
        u = "x" → w = "e" → L = ["x", "e"] → c = 10 := by
      intro u w L c h
      cases h with
      | single u1 =>
        intro hu hw hL
        subst hu
        exact absurd hw (by decide)
      | cons n ns hadj hmem hid tail =>
        intro hu hw hL
        subst hu hw
        simp only [List.cons.injEq] at hL
        obtain ⟨-, hv, hp⟩ := hL
        subst hv hp
        rw [hadj] at hax
        have hns := Option.some.inj hax
        subst hns
        cases tail with
        | single =>
          rcases List.mem_cons.mp hmem with h1 | h2
          · subst h1
            exact absurd hid (by decide)
          · have h2' : n = ⟨"e", 10, true⟩ := List.mem_singleton.mp h2
            subst h2'
            decide
    exact fun c h => inv "x" "e" ["x", "e"] c h rfl rfl rfl

/-- Witness for C1 on the two-node fixture: all hypotheses hold concretely
and the returned path `["a", "b"]` realizes the minimal walk cost. -/
theorem C1_witness :
    ("a" ∈ gTwo.nodes.map Node.id) ∧ ("b" ∈ gTwo.nodes.map Node.id) ∧
    (gTwo.nodes.map Node.id).Nodup ∧ (∀ e ∈ gTwo.edges, 0 < e.distance) ∧
    ("" ∉ gTwo.nodes.map Node.id) ∧
    (∃ p c, findShortestPath gTwo "a" "b" {} = some (some (p.map JSVal.str)) ∧
      WalkCost (adjOf gTwo (({} : RoutePreferences).disallowStairs.getD false))
        (cfOf gTwo (max 0 (({} : RoutePreferences).outdoorPenalty.getD 0))
          (max 0 (({} : RoutePreferences).campusBoundaryPenalty.getD 0)))
        "a" "b" p c ∧
      (∀ q c2, WalkCost (adjOf gTwo (({} : RoutePreferences).disallowStairs.getD false))
        (cfOf gTwo (max 0 (({} : RoutePreferences).outdoorPenalty.getD 0))
          (max 0 (({} : RoutePreferences).campusBoundaryPenalty.getD 0)))
        "a" "b" q c2 → c ≤ c2)) := by
  have ha : lookupA (adjOf gTwo (({} : RoutePreferences).disallowStairs.getD false))
      "a" = some [⟨"b", 3, true⟩] := by decide
  exact ⟨by decide, by decide, by decide, by decide, by decide,
    C1_returns_minimal_cost_path_amended gTwo "a" "b" {} (by decide) (by decide)
      (by decide) (by decide) (by decide)
      ⟨["a", "b"], _, WalkCost.cons ⟨"b", 3, true⟩ _ ha (by decide) rfl
        (WalkCost.single "b")⟩⟩

/-- Witness for C10 on the two-node fixture: all hypotheses hold concretely
and the call returns a value. -/
theorem C10_witness :
    ("a" ∈ gTwo.nodes.map Node.id) ∧ ("b" ∈ gTwo.nodes.map Node.id) ∧
    (gTwo.nodes.map Node.id).Nodup ∧ (∀ e ∈ gTwo.edges, 0 < e.distance) ∧
    ∃ r, findShortestPath gTwo "a" "b" {} = some r :=
  ⟨by decide, by decide, by decide, by decide,
    C10_findShortestPath_terminates gTwo "a" "b" {} (by decide) (by decide)
      (by decide) (by decide)⟩

end ClaimC1Concrete

end NavCu
